import Mathlib

/-!
Verification of the polyomino-generator repository.

Shallow embedding of the four source files:
  * `symmetry.rs`   — the `Symmetry` flag triple and its index encoding;
  * `polyominos.rs` — polyomino normal forms, the catalog generation and the
    per-shape symmetry-transform tables;
  * `main.rs`       — the search `Board` (with resource counters) and the
    backtracking enumeration loop;
  * `board.rs`      — the solution `Board` (no counters), `Solution` ordering,
    `symmetric_board_polyominos` and `cannonical_form`.

Machine integers (`i8`, `usize`) are modelled as `Int` / `Nat`: every value
arising in the program (coordinates of shapes of at most 4 cells, boards of
the configured 3×3 size) is far inside the `i8` range, so two's-complement
wrap-around never occurs on any modelled execution.  Rust panics are modelled
as `Option`/`none` results.
-/

set_option autoImplicit false

namespace PolyGen

/-- A coordinate pair `(x, y)`, `i8 × i8` in the source. -/
abbrev Coord := Int × Int

/-! ## symmetry.rs -/

/-- `Symmetry`: three independent flip flags (symmetry.rs lines 2-7). -/
structure Symmetry where
  horizontal : Bool
  vertical : Bool
  diagonal : Bool
deriving DecidableEq, Repr

namespace Symmetry

/-- `HORIZONTAL_MASK` (symmetry.rs line 10). -/
def horizontalMask : Nat := 1

/-- `VERTICAL_MASK` (symmetry.rs line 11). -/
def verticalMask : Nat := 2

/-- `DIAGONAL_MASK` (symmetry.rs line 12). -/
def diagonalMask : Nat := 4

/-- `Symmetry::from_index_unchecked` (symmetry.rs lines 29-35). -/
def fromIndexUnchecked (index : Nat) : Symmetry :=
  { horizontal := index &&& horizontalMask != 0
    vertical := index &&& verticalMask != 0
    diagonal := index &&& diagonalMask != 0 }

/-- `Symmetry::from_index` (symmetry.rs lines 37-42).  The source panics when
`index > 8`; the panic is modelled as `none`.  Note the guard in the source is
`index > 8`, not `index >= 8`. -/
def fromIndex (index : Nat) : Option Symmetry :=
  if index > 8 then none else some (fromIndexUnchecked index)

/-- `Symmetry::into_index` (symmetry.rs lines 44-56): `ret |= MASK` for each
set flag, on disjoint bit masks. -/
def intoIndex (s : Symmetry) : Nat :=
  (if s.horizontal then horizontalMask else 0) |||
    (if s.vertical then verticalMask else 0) |||
      (if s.diagonal then diagonalMask else 0)

end Symmetry

/-- `Symmetry::ALL_SYMMETRIES` (symmetry.rs lines 14-23): the literal array
`[from_index_unchecked 0, …, from_index_unchecked 7]`. -/
def allSymmetries : List Symmetry :=
  (List.range 8).map Symmetry.fromIndexUnchecked

/-! ## polyominos.rs: coordinate order and normal form -/

/-- `Polyomino::coord_sort` (polyominos.rs lines 22-31): compare `x`, then `y`. -/
def coordCmp (a b : Coord) : Ordering :=
  let r := compare a.1 b.1
  if r = Ordering.eq then compare a.2 b.2 else r

/-- Strict "less" under `coord_sort`, the Boolean used for sorting. -/
def coordLtB (a b : Coord) : Bool := coordCmp a b = Ordering.lt

/-- Insertion of one element into a list sorted by the strict order `lt`;
building block for the sorts performed by the source (`sort_by`, `sort`). -/
def insertBy {α : Type} (lt : α → α → Bool) (a : α) : List α → List α
  | [] => [a]
  | b :: t => if lt a b then a :: b :: t else b :: insertBy lt a t

/-- Sorting by the strict order `lt`.  All lists the source sorts have
pairwise distinct elements under a total order, so the sorted result is the
unique ascending arrangement and any correct sort (the source uses the
standard-library merge sort) produces exactly this list. -/
def sortBy {α : Type} (lt : α → α → Bool) (l : List α) : List α :=
  l.foldr (insertBy lt) []

/-- A polyomino is modelled by its normalized coordinate list (the `coords`
field of `Polyomino`; the cached `symmetries` table is kept in a parallel
structure, matching the source's `PartialEq`/`Hash` which ignore it). -/
abbrev Poly := List Coord

/-- `Polyomino::new` (polyominos.rs lines 33-47): panics (`none`) when more
than 4 coordinates or `(0,0)` missing; otherwise sorts by `coord_sort`. -/
def polyNew (coords : List Coord) : Option Poly :=
  if coords.length > 4 then none
  else if ¬ coords.contains ((0 : Int), (0 : Int)) then none
  else some (sortBy coordLtB coords)

/-- `Polyomino::apply_flips` (polyominos.rs lines 59-92).  Per coordinate:
negate `x` if `horizontal`, then negate `y` if `vertical`, then swap if
`diagonal`; afterwards translate the top-left-most coordinate (smallest `y`,
ties by smallest `x`; fold started at `(i8::MAX, i8::MAX)`) to the origin and
re-sort. -/
def applyFlips (p : Poly) (t : Symmetry) : Poly :=
  let flipped := p.map (fun c =>
    let x := if t.horizontal then -c.1 else c.1
    let y := if t.vertical then -c.2 else c.2
    if t.diagonal then (y, x) else (x, y))
  let tl := flipped.foldl
    (fun tl c =>
      if c.2 < tl.2 then c
      else if c.2 = tl.2 ∧ c.1 < tl.1 then c
      else tl)
    ((127 : Int), (127 : Int))
  sortBy coordLtB (flipped.map (fun c => (c.1 - tl.1, c.2 - tl.2)))

/-- The manual `PartialOrd for Polyomino` (polyominos.rs lines 167-185):
shorter before longer, then first differing coordinate pair decides.  Its
element loop runs over indices `0..len` with equal lengths. -/
def lexCoords : List Coord → List Coord → Ordering
  | [], _ => Ordering.eq
  | _ :: _, [] => Ordering.eq
  | a :: as_, b :: bs =>
    match coordCmp a b with
    | Ordering.eq => lexCoords as_ bs
    | o => o

/-- The manual `PartialOrd for Polyomino` comparison (always `Some`). -/
def polyCmpManual (a b : Poly) : Ordering :=
  if a.length > b.length then Ordering.gt
  else if a.length < b.length then Ordering.lt
  else lexCoords a b

/-- Strict "less" of the manual polyomino order; this is the `lt` the
standard-library `sort` uses (`slice::sort` sorts with `T::lt`, whose default
implementation calls the manual `partial_cmp`). -/
def polyLtB (a b : Poly) : Bool := polyCmpManual a b = Ordering.lt

/-- The `#[derive(Ord)]` comparison of `Polyomino` (polyominos.rs line 15):
field-wise, starting with `coords`, whose `ArrayVec`/slice order is plain
element-lexicographic with a shorter prefix ordered first.  (The derived code
compares the cached `symmetries` field only when the coordinate lists are
equal; equal coordinate lists identify the same deduplicated catalog entry,
whose cached table is identical, so that comparison never decides and is
omitted from the model.) -/
def sliceCmp : List Coord → List Coord → Ordering
  | [], [] => Ordering.eq
  | [], _ :: _ => Ordering.lt
  | _ :: _, [] => Ordering.gt
  | a :: as_, b :: bs =>
    match coordCmp a b with
    | Ordering.eq => sliceCmp as_ bs
    | o => o

/-! ## polyominos.rs: catalog generation -/

/-- `adjacent_coords` (polyominos.rs lines 221-234): the four axis neighbours
of every coordinate, deduplicated (the source collects them in a `HashSet`),
minus coordinates already present, restricted to `y ≥ 0` and, on the row
`y = 0`, to `x ≥ 0`. -/
def adjacentCoords (p : List Coord) : List Coord :=
  ((p.flatMap (fun c => [(c.1 - 1, c.2), (c.1 + 1, c.2), (c.1, c.2 - 1), (c.1, c.2 + 1)])).dedup.filter
    (fun c => ¬ p.contains c ∧ c.2 ≥ 0 ∧ ¬(c.2 = 0 ∧ c.1 < 0)))

/-- The raw coordinate sequences of length `n` reachable by the generation
loop of `generate_all_polyominos` (polyominos.rs lines 188-207): the base
sequence `[(0,0)]`, extended one adjacent candidate at a time.  The source
drives this with an explicit work stack holding exactly these sequences (a
sequence of length `< max_size` is pushed and later extended); enumerating
them by length visits the same sequences, and only the resulting set matters
because every sequence is inserted into a deduplicating set. -/
def seqsOfSize : Nat → List (List Coord)
  | 0 => []
  | 1 => [[((0 : Int), (0 : Int))]]
  | n + 2 => (seqsOfSize (n + 1)).flatMap
      (fun s => (adjacentCoords s).map (fun c => s ++ [c]))

/-- `generate_all_polyominos` (polyominos.rs lines 188-219), before the
transform-table pass: normalize every reachable sequence of size `1..=maxSize`
with `Polyomino::new`, deduplicate, and sort by the polyomino order (see
`polyLtB`). -/
def generateAllPolyominos (maxSize : Nat) : List Poly :=
  sortBy polyLtB
    (((List.range maxSize).flatMap (fun k => seqsOfSize (k + 1))).filterMap polyNew).dedup

/-- `ALL_POLYOMINOS` (polyominos.rs lines 11-13). -/
def allPolyominos : List Poly := generateAllPolyominos 4

/-- `Polyomino::compute_transforms` (polyominos.rs lines 124-145): for each of
the 8 symmetries, apply the flips to a copy and look the result up in the
catalog by coordinate equality (`position`, i.e. the first matching index);
a failed lookup panics (`none`). -/
def computeTransforms (p : Poly) (all : List Poly) : List (Option Nat) :=
  allSymmetries.map (fun σ => all.indexOf? (applyFlips p σ))

/-- The per-shape `symmetries` tables filled in by the final loop of
`generate_all_polyominos` (polyominos.rs lines 212-216), in catalog order. -/
def symTables : List (List (Option Nat)) :=
  allPolyominos.map (fun p => computeTransforms p allPolyominos)

/-- `Polyomino::transform` (polyominos.rs lines 147-149):
`ALL_POLYOMINOS[self.symmetries.unwrap()[symmetry.into_index()]]`, with the
shape's own table located by its catalog index; the `unwrap` and the indexing
panics are modelled as `none`. -/
def transformPoly (p : Poly) (σ : Symmetry) : Option Poly :=
  (allPolyominos.indexOf? p).bind (fun i =>
    (symTables.get? i).bind (fun table =>
      (table.get? σ.intoIndex).bind (fun entry =>
        entry.bind (fun j => allPolyominos.get? j))))

/-! ## Specification-side transform order (for comparison with `applyFlips`) -/

/-- The coordinate transform in the order the specification describes for
shapes: swap `x`/`y` first when `diagonal` is set, and only then negate `x`
for `horizontal` and negate `y` for `vertical`; afterwards the same
re-normalization as `applyFlips`.  This definition follows the words of the
specification, not the source, and exists to be compared with `applyFlips`. -/
def applyFlipsSpecOrder (p : Poly) (t : Symmetry) : Poly :=
  let flipped := p.map (fun c =>
    let c := if t.diagonal then (c.2, c.1) else c
    let x := if t.horizontal then -c.1 else c.1
    let y := if t.vertical then -c.2 else c.2
    (x, y))
  let tl := flipped.foldl
    (fun tl c =>
      if c.2 < tl.2 then c
      else if c.2 = tl.2 ∧ c.1 < tl.1 then c
      else tl)
    ((127 : Int), (127 : Int))
  sortBy coordLtB (flipped.map (fun c => (c.1 - tl.1, c.2 - tl.2)))

/-- The amended transform order as three whole-list passes: negate `x` for
`horizontal`, then negate `y` for `vertical`, then swap the pair for
`diagonal` (axis flips strictly before the diagonal swap), followed by the
same re-normalization. -/
def applyFlipsAmendedOrder (p : Poly) (t : Symmetry) : Poly :=
  let pass1 := p.map (fun c => (if t.horizontal then -c.1 else c.1, c.2))
  let pass2 := pass1.map (fun c => (c.1, if t.vertical then -c.2 else c.2))
  let flipped := pass2.map (fun c => if t.diagonal then (c.2, c.1) else c)
  let tl := flipped.foldl
    (fun tl c =>
      if c.2 < tl.2 then c
      else if c.2 = tl.2 ∧ c.1 < tl.1 then c
      else tl)
    ((127 : Int), (127 : Int))
  sortBy coordLtB (flipped.map (fun c => (c.1 - tl.1, c.2 - tl.2)))

/-- Strict ascending order of adjacent coordinates under `coord_sort`. -/
def ascendingB : List Coord → Bool
  | [] => true
  | [_] => true
  | a :: b :: t => coordLtB a b && ascendingB (b :: t)

/-! ## main.rs: the search board with resource counters -/

/-- The grid positions in row-major order (`y` outer, `x` inner), the
traversal order of `find_first_open_cell` and of the board loops. -/
def gridPositions (w h : Nat) : List (Int × Int) :=
  (List.range h).flatMap (fun y => (List.range w).map (fun x => (Int.ofNat x, Int.ofNat y)))

/-- Writing one cell: update when in bounds.  `Board::set` in the source
panics when out of bounds and asserts the previous value is `None`; every
call the program makes satisfies both (the anchor coordinates were checked by
`try_add` first), so the model uses the plain update. -/
def setCell (cells : List (Option Nat)) (w : Nat) (x y : Int) (v : Option Nat) :
    List (Option Nat) :=
  if 0 ≤ x ∧ 0 ≤ y then cells.set (x.toNat + y.toNat * w) v else cells

namespace M

/-- `MAX_ONES_OR_TWOS` (main.rs line 5). -/
def maxOnesOrTwos : Nat := 1

/-- `MAX_THREES` (main.rs line 6). -/
def maxThrees : Nat := 2

/-- The `Board` of main.rs (lines 8-16): cells each empty or holding the
index of the occupying piece, the dimensions, the two resource counters and
the placement sequence. -/
structure Board where
  cells : List (Option Nat)
  width : Nat
  height : Nat
  oneOrTwoSizedCount : Nat
  threeSizedCount : Nat
  polyominos : List Poly
deriving DecidableEq, Repr

namespace Board

/-- `Board::new` (main.rs lines 19-30). -/
def new (width height : Nat) : Board :=
  { cells := List.replicate (width * height) none
    width := width
    height := height
    oneOrTwoSizedCount := 0
    threeSizedCount := 0
    polyominos := [] }

/-- `Board::is_in_bounds` (main.rs lines 119-121). -/
def isInBounds (b : Board) (x y : Int) : Prop :=
  ¬(x < 0 ∨ y < 0 ∨ x ≥ (b.width : Int) ∨ y ≥ (b.height : Int))

instance (b : Board) (x y : Int) : Decidable (b.isInBounds x y) := by
  unfold isInBounds; infer_instance

/-- `Board::get` (main.rs lines 100-106): outer `none` when out of bounds,
inner `none` when the cell is empty. -/
def get (b : Board) (x y : Int) : Option (Option Nat) :=
  if b.isInBounds x y then some (b.cells.getD (x.toNat + y.toNat * b.width) none) else none

/-- `Board::find_first_open_cell` (main.rs lines 87-96): first grid position
in row-major order whose cell is empty. -/
def findFirstOpenCell (b : Board) : Option (Int × Int) :=
  (gridPositions b.width b.height).find? (fun c => b.get c.1 c.2 == some none)

/-- `Board::is_full` (main.rs lines 123-125). -/
def isFull (b : Board) : Bool :=
  b.findFirstOpenCell.isNone

/-- The coordinate-checking loop inside `Board::try_add` (main.rs lines
76-83): every shape coordinate translated by the anchor must be in bounds and
empty; the first violation rejects the whole placement. -/
def checkCoords (b : Board) (base : Int × Int) : List Coord → Option (Int × Int)
  | [] => some base
  | c :: rest =>
    if b.get (base.1 + c.1) (base.2 + c.2) = some none then b.checkCoords base rest
    else none

/-- `Board::try_add` (main.rs lines 65-85): budget check by size class, then
anchor at the first open cell and check all coordinates. -/
def tryAdd (b : Board) (p : Poly) : Option (Int × Int) :=
  if (p.length = 1 ∨ p.length = 2) ∧ b.oneOrTwoSizedCount ≥ maxOnesOrTwos then none
  else if p.length = 3 ∧ b.threeSizedCount ≥ maxThrees then none
  else (b.findFirstOpenCell).bind (fun base => b.checkCoords base p)

/-- `Board::add_at_position` (main.rs lines 52-63): write the new piece index
into every covered cell, append the shape, bump the size-class counter. -/
def addAtPosition (b : Board) (p : Poly) (base : Int × Int) : Board :=
  { b with
    cells := p.foldl
      (fun cells c =>
        setCell cells b.width (base.1 + c.1) (base.2 + c.2) (some b.polyominos.length))
      b.cells
    polyominos := b.polyominos ++ [p]
    oneOrTwoSizedCount :=
      if p.length = 1 ∨ p.length = 2 then b.oneOrTwoSizedCount + 1
      else b.oneOrTwoSizedCount
    threeSizedCount :=
      if p.length = 1 ∨ p.length = 2 then b.threeSizedCount
      else if p.length = 3 then b.threeSizedCount + 1
      else b.threeSizedCount }

/-- `Board::add` (main.rs lines 32-40), returning the updated board and the
success flag (the source mutates in place). -/
def add (b : Board) (p : Poly) : Board × Bool :=
  match b.tryAdd p with
  | some base => (b.addAtPosition p base, true)
  | none => (b, false)

/-- `Board::add_clone` (main.rs lines 43-50): clone and place only when
`try_add` succeeds. -/
def addClone (b : Board) (p : Poly) : Option Board :=
  (b.tryAdd p).map (fun base => b.addAtPosition p base)

end Board

/-- Search states reachable from the initial empty board by successful
placements (`add_clone` results), as performed by the main loop. -/
inductive Reachable (w h : Nat) : Board → Prop
  | init : Reachable w h (Board.new w h)
  | step (b b2 : Board) (p : Poly) :
      Reachable w h b → b.addClone p = some b2 → Reachable w h b2

/-- The number of empty cells of a board. -/
def emptyCount (b : Board) : Nat := b.cells.countP (fun c => c.isNone)

/-- Structural well-formedness: the cell vector has exactly
`width * height` entries, as established by `Board::new` and preserved by
every placement. -/
def WF (b : Board) : Prop := b.cells.length = b.width * b.height

/-- All boards produced from one popped board by trying every catalog shape
in catalog order (`if let Some(new_board) = board.add_clone(polyomino)`,
main.rs lines 150-151). -/
def children (b : Board) : List Board :=
  allPolyominos.filterMap (fun p => b.addClone p)

/-- The body of the search loop for one popped board (main.rs lines
150-158): iterate the catalog in order; full boards are emitted, the others
pushed.  Returns the emitted boards and the pushed boards, each in encounter
order. -/
def expand (b : Board) : List Board × List Board :=
  allPolyominos.foldl
    (fun acc p =>
      match b.addClone p with
      | some nb => if nb.isFull then (acc.1 ++ [nb], acc.2) else (acc.1, acc.2 ++ [nb])
      | none => acc)
    ([], [])

/-- The search loop of `main` (main.rs lines 145-159) with an explicit
iteration budget (the loop terminates because every push strictly decreases
the number of empty cells; `searchFuel` below is enough for the configured
run).  The stack keeps its top at the head — the source uses `Vec::push` /
`Vec::pop` at the end — so the boards pushed during one expansion arrive in
reverse push order. -/
def searchAux : Nat → List Board → List Board
  | 0, _ => []
  | _ + 1, [] => []
  | n + 1, b :: rest =>
    let e := expand b
    e.1 ++ searchAux n (e.2.reverse ++ rest)

/-- Replaying a sequence of placements from a board; `none` as soon as one
placement is rejected. -/
def replay (b : Board) : List Poly → Option Board
  | [] => some b
  | p :: t => (b.addClone p).bind (fun nb => replay nb t)

/-- A sequence of shapes is a legal full sequence from `b` when replaying it
succeeds and completely fills the board. -/
def replayFull (b : Board) (s : List Poly) : Bool :=
  match replay b s with
  | some b2 => b2.isFull
  | none => false

/-- The finite enumeration of all full boards reachable from `b` by
successful placements of catalog shapes, with an explicit recursion budget
(`emptyCount` strictly decreases along `children`). -/
def fullDescAux : Nat → Board → List Board
  | 0, _ => []
  | n + 1, b =>
    (children b).flatMap (fun nb => if nb.isFull then [nb] else fullDescAux n nb)

/-- The measure that bounds the number of loop iterations: with
`K = allPolyominos.length + 1`, a popped board of `e` empty cells is replaced
by at most `K - 1` boards of at most `e - 1` empty cells each. -/
def stackMeasure (stack : List Board) : Nat :=
  (stack.map (fun b => (allPolyominos.length + 1) ^ emptyCount b)).sum

/-- An iteration budget sufficient for the configured 3×3 run. -/
def searchFuel : Nat := (allPolyominos.length + 1) ^ 9

/-- The complete run of `main`: the list of completed boards the search
emits, in emission order (main.rs lines 145-159). -/
def mainSearch : List Board := searchAux searchFuel [Board.new 3 3]

end M

namespace BR

/-! ## board.rs: the solution board, `Solution` ordering and canonical forms -/

/-- The `Board` of board.rs (lines 36-42): like the search board but without
resource counters. -/
structure Board where
  cells : List (Option Nat)
  polyominos : List Poly
  width : Nat
  height : Nat
deriving DecidableEq, Repr

namespace Board

/-- `Board::new` (board.rs lines 45-54). -/
def new (width height : Nat) : Board :=
  { cells := List.replicate (width * height) none
    polyominos := []
    width := width
    height := height }

/-- `Board::is_in_bounds` (board.rs lines 138-140). -/
def isInBounds (b : Board) (x y : Int) : Prop :=
  ¬(x < 0 ∨ y < 0 ∨ x ≥ (b.width : Int) ∨ y ≥ (b.height : Int))

instance (b : Board) (x y : Int) : Decidable (b.isInBounds x y) := by
  unfold isInBounds; infer_instance

/-- `Board::get` (board.rs lines 119-125). -/
def get (b : Board) (x y : Int) : Option (Option Nat) :=
  if b.isInBounds x y then some (b.cells.getD (x.toNat + y.toNat * b.width) none) else none

/-- `Board::find_first_open_cell` (board.rs lines 106-115). -/
def findFirstOpenCell (b : Board) : Option (Int × Int) :=
  (gridPositions b.width b.height).find? (fun c => b.get c.1 c.2 == some none)

/-- `Board::is_full` (board.rs lines 143-145). -/
def isFull (b : Board) : Bool :=
  b.findFirstOpenCell.isNone

/-- The coordinate-checking loop of `Board::try_add` (board.rs lines 96-100). -/
def checkCoords (b : Board) (base : Int × Int) : List Coord → Option (Int × Int)
  | [] => some base
  | c :: rest =>
    if b.get (base.1 + c.1) (base.2 + c.2) = some none then b.checkCoords base rest
    else none

/-- `Board::try_add` (board.rs lines 93-104): no resource budget here. -/
def tryAdd (b : Board) (p : Poly) : Option (Int × Int) :=
  (b.findFirstOpenCell).bind (fun base => b.checkCoords base p)

/-- `Board::add_at_position` (board.rs lines 85-91). -/
def addAtPosition (b : Board) (p : Poly) (base : Int × Int) : Board :=
  { b with
    cells := p.foldl
      (fun cells c =>
        setCell cells b.width (base.1 + c.1) (base.2 + c.2) (some b.polyominos.length))
      b.cells
    polyominos := b.polyominos ++ [p] }

/-- `Board::add` (board.rs lines 65-73). -/
def add (b : Board) (p : Poly) : Board × Bool :=
  match b.tryAdd p with
  | some base => (b.addAtPosition p base, true)
  | none => (b, false)

/-- `Board::add_clone` (board.rs lines 76-83). -/
def addClone (b : Board) (p : Poly) : Option Board :=
  (b.tryAdd p).map (fun base => b.addAtPosition p base)

/-- The coordinate lookup of `symmetric_board_polyominos` (board.rs lines
166-180): the diagonal swap is applied before the horizontal and vertical
reflections, then the cell is read; the two `unwrap` calls are modelled by
the `Option` result (`none` is the panic). -/
def getTransformed (b : Board) (σ : Symmetry) (x y : Int) : Option Nat :=
  let p := if σ.diagonal then (y, x) else (x, y)
  let x2 := if σ.horizontal then (b.width : Int) - 1 - p.1 else p.1
  let y2 := if σ.vertical then (b.height : Int) - 1 - p.2 else p.2
  (b.get x2 y2).bind id

end Board

/-- The first-seen deduplication of the `indices` loop in
`symmetric_board_polyominos` (board.rs lines 186-194): keep each value at its
first occurrence, in traversal order. -/
def firstSeen (l : List Nat) : List Nat :=
  l.foldl (fun acc i => if i ∈ acc then acc else acc ++ [i]) []

/-- `Board::symmetric_board_polyominos` (board.rs lines 164-207): the
width/height assertion for diagonal symmetries, then the row-major scan of
transformed piece indices, first-seen deduplication, and the mapping of each
index through `Polyomino::transform`.  The source interleaves the grid scan
with the deduplication; reading all transformed indices first (`mapM`) and
deduplicating afterwards visits the same values in the same order.  The
debug-only `from_solution` self-check (lines 200-204) is compiled out in
release builds and not modelled.  Any panic is `none`. -/
def symmetricBoardPolyominos (b : Board) (σ : Symmetry) : Option (List Poly) :=
  if b.width ≠ b.height ∧ σ.diagonal = true then none
  else
    ((gridPositions b.width b.height).mapM (fun c => b.getTransformed σ c.1 c.2)).bind
      (fun vals => (firstSeen vals).mapM (fun i =>
        (b.polyominos.get? i).bind (fun p => transformPoly p σ)))

/-- The element comparison used by the manual `PartialOrd for Solution`
(board.rs line 25): `Polyomino::cmp`, which is the derived `Ord`, i.e. the
slice-lexicographic coordinate order (`sliceCmp`). -/
def lexPolys : List Poly → List Poly → Ordering
  | [], _ => Ordering.eq
  | _ :: _, [] => Ordering.eq
  | a :: as_, b :: bs =>
    match sliceCmp a b with
    | Ordering.eq => lexPolys as_ bs
    | o => o

/-- The manual `PartialOrd for Solution` (board.rs lines 16-34): length
first, then the first index at which `Polyomino::cmp` differs. -/
def solCmp (a b : List Poly) : Ordering :=
  if a.length > b.length then Ordering.gt
  else if a.length < b.length then Ordering.lt
  else lexPolys a b

/-- Strict "less" on solutions, as used by `cannonical_form`
(`&current_solution < best_solution`). -/
def solLtB (a b : List Poly) : Bool := solCmp a b = Ordering.lt

/-- The running-minimum fold of `cannonical_form` (board.rs lines 212-226):
`best` starts empty, the first candidate installs itself, every later
candidate replaces the best exactly when strictly smaller. -/
def selectMinSol : List (List Poly) → Option (List Poly)
  | [] => none
  | s :: rest => some (rest.foldl (fun best cur => if solLtB cur best then cur else best) s)

/-- The symmetries the `cannonical_form` loop does not skip: all eight on a
square board, the non-diagonal four otherwise (board.rs lines 213-216). -/
def applicableSymmetries (b : Board) : List Symmetry :=
  allSymmetries.filter (fun σ => !(decide (b.width ≠ b.height) && σ.diagonal))

/-- `Board::cannonical_form` (board.rs lines 209-227): asserts fullness,
iterates `ALL_SYMMETRIES` skipping diagonal ones on non-square boards,
computes each symmetric solution and keeps the minimum under `<`. -/
def cannonicalForm (b : Board) : Option (List Poly) :=
  if b.isFull = false then none
  else
    ((applicableSymmetries b).mapM (fun σ => symmetricBoardPolyominos b σ)).bind
      selectMinSol

/-- Boards reachable from `Board::new` by successful `add`/`add_clone`
placements. -/
inductive Reach (w h : Nat) : Board → Prop
  | init : Reach w h (Board.new w h)
  | step (b b2 : Board) (p : Poly) :
      Reach w h b → b.addClone p = some b2 → Reach w h b2

/-- The grid coordinate map read by `get_transformed`: diagonal swap first,
then the two reflections (board.rs lines 166-178). -/
def symCoord (w h : Nat) (σ : Symmetry) (c : Int × Int) : Int × Int :=
  let p := if σ.diagonal then (c.2, c.1) else c
  ((if σ.horizontal then (w : Int) - 1 - p.1 else p.1),
    (if σ.vertical then (h : Int) - 1 - p.2 else p.2))

/-- The composition law of the board coordinate maps: applying `τ` and then
`σ` reads the same cell as the single symmetry `compSym σ τ`. -/
def compSym (σ τ : Symmetry) : Symmetry :=
  { horizontal := (σ.horizontal).xor (if σ.diagonal then τ.vertical else τ.horizontal)
    vertical := (σ.vertical).xor (if σ.diagonal then τ.horizontal else τ.vertical)
    diagonal := (σ.diagonal).xor τ.diagonal }

/-- The inverse symmetry for the board coordinate maps. -/
def invSym (σ : Symmetry) : Symmetry :=
  { horizontal := if σ.diagonal then σ.vertical else σ.horizontal
    vertical := if σ.diagonal then σ.horizontal else σ.vertical
    diagonal := σ.diagonal }

/-- The piece index stored at a grid cell (defaulting to 0; on the full
boards under consideration every cell stores an index). -/
def cellIdx (b : Board) (c : Int × Int) : Nat :=
  ((b.get c.1 c.2).bind id).getD 0

/-- The transformed piece indices of the whole grid in row-major order. -/
def transVals (b : Board) (σ : Symmetry) : Option (List Nat) :=
  (gridPositions b.width b.height).mapM (fun c => b.getTransformed σ c.1 c.2)

/-- Modelled from the spec: the board obtained by transforming a full board
by a symmetry (the operand of the orbit-invariance property; the source has
no such function).  Its cell grid holds, at every position, the first-seen
renumbering of the piece index read through the transformed coordinates —
exactly the board the transformed solution of
`symmetric_board_polyominos` describes — and its placement sequence is that
transformed solution. -/
def transformBoard (b : Board) (σ : Symmetry) : Option Board :=
  (transVals b σ).bind (fun vs =>
    (symmetricBoardPolyominos b σ).map (fun sol =>
      { cells := vs.map (fun j => some ((firstSeen vs).indexOf j))
        polyominos := sol
        width := b.width
        height := b.height }))

/-- Structural well-formedness of the cell vector. -/
def WF (b : Board) : Prop := b.cells.length = b.width * b.height

end BR

/-- The non-strict solution order used to state minimality. -/
def solLe (a b : List Poly) : Prop := ¬ BR.solCmp a b = Ordering.gt

/-! ## Claims about the catalog and the symmetry encoding -/

/-- **C3**: the generated catalog `ALL_POLYOMINOS` is sorted by the total
order on shapes: any shape with fewer coordinates precedes every shape with
more coordinates, and among equal lengths the first differing coordinate pair
under (x, then y) comparison decides — i.e. every earlier catalog entry is
strictly less than every later one under `polyCmpManual`. -/
theorem c3_catalog_sorted :
    List.Pairwise (fun a b => polyCmpManual a b = Ordering.lt) allPolyominos := by
  decide

/-- **C4 counterexample**: the claim that `apply_flips` swaps `x`/`y` first
(when `diagonal` is set) and negates afterwards is false on the code: for the
L-shape of the test suite and the symmetry `{horizontal, diagonal}` the code
result differs from the claimed-order result. -/
theorem c4_spec_order_refuted :
    applyFlips [((0 : Int), (0 : Int)), (0, 1), (1, 1), (2, 1)]
        ⟨true, false, true⟩ ≠
      applyFlipsSpecOrder [((0 : Int), (0 : Int)), (0, 1), (1, 1), (2, 1)]
        ⟨true, false, true⟩ := by
  decide

/-- **C4 (amended)**: for every shape and symmetry, `apply_flips` negates `x`
if `horizontal`, then negates `y` if `vertical`, and only then swaps the two
components if `diagonal` (axis flips strictly before the diagonal swap);
afterwards it re-normalizes by translating the coordinate with smallest `y`
(ties by smallest `x`) to the origin and re-sorting. -/
theorem c4_apply_flips_order (p : Poly) (t : Symmetry) :
    applyFlips p t = applyFlipsAmendedOrder p t := by
  unfold applyFlips applyFlipsAmendedOrder
  simp only [List.map_map]
  have h : (fun c : Coord =>
      let x := if t.horizontal then -c.1 else c.1
      let y := if t.vertical then -c.2 else c.2
      if t.diagonal then (y, x) else (x, y)) =
      ((fun c : Coord => if t.diagonal then (c.2, c.1) else c) ∘
        (fun c : Coord => (c.1, if t.vertical then -c.2 else c.2)) ∘
          (fun c : Coord => (if t.horizontal then -c.1 else c.1, c.2))) := by
    funext c
    cases t.diagonal <;> simp
  rw [h]

/-- **C4 witness**: the amended order theorem evaluated at the L-shape and the
symmetry `{horizontal, diagonal}`. -/
theorem c4_apply_flips_order_witness :
    applyFlips [((0 : Int), (0 : Int)), (0, 1), (1, 1), (2, 1)] ⟨true, false, true⟩ =
      applyFlipsAmendedOrder [((0 : Int), (0 : Int)), (0, 1), (1, 1), (2, 1)]
        ⟨true, false, true⟩ :=
  c4_apply_flips_order [((0 : Int), (0 : Int)), (0, 1), (1, 1), (2, 1)] ⟨true, false, true⟩

/-- **C7**: for every shape of the generated catalog, the transform-table
entry for the identity symmetry (index 0) is the shape's own catalog index,
and looking up the identity transform returns the shape itself. -/
theorem c7_identity_transform :
    ((List.range allPolyominos.length).all
        (fun i => (symTables.getD i []).getD 0 none == some i) = true) ∧
      (allPolyominos.all
        (fun p => transformPoly p ⟨false, false, false⟩ == some p) = true) := by
  constructor
  · decide
  · decide

/-- **C8 evaluation**: `Symmetry::from_index` does not fail on index 8 — the
guard in the source is `index > 8` — and instead returns the identity
symmetry; on 0..=7 it decodes the three bits (bit 0 horizontal, bit 1
vertical, bit 2 diagonal) with `into_index` as inverse, and index 9 fails. -/
theorem c8_from_index_eight :
    Symmetry.fromIndex 8 = some ⟨false, false, false⟩ ∧
      Symmetry.fromIndex 9 = none ∧
      ((List.range 8).all (fun i =>
        Symmetry.fromIndex i == some ⟨i.testBit 0, i.testBit 1, i.testBit 2⟩ &&
          (Symmetry.fromIndex i).map Symmetry.intoIndex == some i) = true) := by
  refine ⟨rfl, rfl, ?_⟩
  decide

/-- **C10**: every catalog entry contains `(0,0)`, has between 1 and 4
coordinates stored in strictly ascending (x, then y) order, and all its
coordinates lie in the generation half-plane: `y ≥ 0`, and `x ≥ 0` whenever
`y = 0`. -/
theorem c10_catalog_invariants :
    allPolyominos.all (fun p =>
      p.contains ((0 : Int), (0 : Int)) &&
        decide (1 ≤ p.length) && decide (p.length ≤ 4) &&
        ascendingB p &&
        p.all (fun c => decide (0 ≤ c.2) && (decide (c.2 = 0) → decide (0 ≤ c.1)))) =
      true := by
  decide

namespace M

/-- The coordinate check fails exactly when some anchored coordinate is out
of bounds or occupied. -/
theorem checkCoords_none_iff (b : Board) (base : Int × Int) (l : List Coord) :
    b.checkCoords base l = none ↔
      ∃ c ∈ l, ¬ b.get (base.1 + c.1) (base.2 + c.2) = some none := by
  induction l with
  | nil => simp [Board.checkCoords]
  | cons c rest ih =>
    by_cases h : b.get (base.1 + c.1) (base.2 + c.2) = some none <;>
      simp [Board.checkCoords, h, ih]

/-- A successful coordinate check returns the anchor unchanged. -/
theorem checkCoords_some (b : Board) (base : Int × Int) (l : List Coord) :
    b.checkCoords base l = none ∨ b.checkCoords base l = some base := by
  induction l with
  | nil => simp [Board.checkCoords]
  | cons c rest ih =>
    by_cases h : b.get (base.1 + c.1) (base.2 + c.2) = some none <;>
      simp [Board.checkCoords, h, ih]

end M

/-- **C5**: the attempt-to-place operation (`add` / `add_clone`) fails exactly
when the size-class budget counter is already at its maximum, or the board
has no empty cell, or some shape coordinate translated by the first-open-cell
anchor is out of bounds or occupied; and on failure `add` returns the board
completely unchanged together with `false` (no partial commit). -/
theorem c5_placement_failure (b : M.Board) (p : Poly) :
    (b.addClone p = none ∧ b.add p = (b, false)) ↔
      ((p.length = 1 ∨ p.length = 2) ∧ b.oneOrTwoSizedCount ≥ M.maxOnesOrTwos) ∨
        (p.length = 3 ∧ b.threeSizedCount ≥ M.maxThrees) ∨
        b.findFirstOpenCell = none ∨
        (∃ base, b.findFirstOpenCell = some base ∧
          ∃ c ∈ p, ¬ b.get (base.1 + c.1) (base.2 + c.2) = some none) := by
  have key : b.tryAdd p = none ↔
      ((p.length = 1 ∨ p.length = 2) ∧ b.oneOrTwoSizedCount ≥ M.maxOnesOrTwos) ∨
        (p.length = 3 ∧ b.threeSizedCount ≥ M.maxThrees) ∨
        b.findFirstOpenCell = none ∨
        (∃ base, b.findFirstOpenCell = some base ∧
          ∃ c ∈ p, ¬ b.get (base.1 + c.1) (base.2 + c.2) = some none) := by
    unfold M.Board.tryAdd
    by_cases h1 : (p.length = 1 ∨ p.length = 2) ∧ b.oneOrTwoSizedCount ≥ M.maxOnesOrTwos
    · simp [h1]
    by_cases h2 : p.length = 3 ∧ b.threeSizedCount ≥ M.maxThrees
    · simp [h1, h2]
    cases hf : b.findFirstOpenCell with
    | none => simp [h1, h2, hf]
    | some base =>
      simp only [h1, h2, hf, if_false, Option.some_bind, Option.some.injEq,
        false_or, if_neg]
      rw [M.checkCoords_none_iff]
      constructor
      · intro h
        exact Or.inr ⟨base, rfl, h⟩
      · rintro (h | ⟨base2, hb2, h⟩)
        · exact absurd h (by simp)
        · cases hb2
          exact h
  constructor
  · intro h
    rw [← key]
    have := h.1
    unfold M.Board.addClone at this
    cases ht : b.tryAdd p with
    | none => rfl
    | some base => rw [ht] at this; simp at this
  · intro h
    rw [← key] at h
    unfold M.Board.addClone M.Board.add
    rw [h]
    exact ⟨rfl, rfl⟩

/-- **C6**: in every search state reachable from the initial empty board by
successful placements, the size-1/2 counter never exceeds `MAX_ONES_OR_TWOS`
(1) and the size-3 counter never exceeds `MAX_THREES` (2); both counters of
the initial board are zero; and each successful placement increments exactly
the counter of its size class and leaves the other unchanged. -/
theorem c6_counter_invariant (w h : Nat) (b : M.Board) (p : Poly) (b2 : M.Board)
    (hr : M.Reachable w h b) :
    (b.oneOrTwoSizedCount ≤ M.maxOnesOrTwos ∧ b.threeSizedCount ≤ M.maxThrees) ∧
      ((M.Board.new w h).oneOrTwoSizedCount = 0 ∧ (M.Board.new w h).threeSizedCount = 0) ∧
      (b.addClone p = some b2 →
        b2.oneOrTwoSizedCount =
            b.oneOrTwoSizedCount + (if p.length = 1 ∨ p.length = 2 then 1 else 0) ∧
          b2.threeSizedCount =
            b.threeSizedCount + (if p.length = 3 then 1 else 0)) := by
  have step_eq : ∀ (c : M.Board) (q : Poly) (c2 : M.Board), c.addClone q = some c2 →
      c2.oneOrTwoSizedCount =
          c.oneOrTwoSizedCount + (if q.length = 1 ∨ q.length = 2 then 1 else 0) ∧
        c2.threeSizedCount =
          c.threeSizedCount + (if q.length = 3 then 1 else 0) := by
    intro c q c2 hc
    unfold M.Board.addClone at hc
    cases ht : c.tryAdd q with
    | none => rw [ht] at hc; simp at hc
    | some base =>
      rw [ht] at hc
      simp only [Option.map_some', Option.some.injEq] at hc
      subst hc
      unfold M.Board.addAtPosition
      by_cases h12 : q.length = 1 ∨ q.length = 2
      · have h3 : ¬ q.length = 3 := by omega
        simp [h12, h3]
      · by_cases h3 : q.length = 3
        · simp [h12, h3]
        · simp [h12, h3]
  have budget : ∀ (c : M.Board) (q : Poly) (c2 : M.Board), c.addClone q = some c2 →
      c.oneOrTwoSizedCount ≤ M.maxOnesOrTwos ∧ c.threeSizedCount ≤ M.maxThrees →
      c2.oneOrTwoSizedCount ≤ M.maxOnesOrTwos ∧ c2.threeSizedCount ≤ M.maxThrees := by
    intro c q c2 hc hinv
    have heq := step_eq c q c2 hc
    have htry : c.tryAdd q ≠ none := by
      unfold M.Board.addClone at hc
      intro hn; rw [hn] at hc; simp at hc
    unfold M.Board.tryAdd at htry
    by_cases h12 : q.length = 1 ∨ q.length = 2
    · have hlt : c.oneOrTwoSizedCount < M.maxOnesOrTwos := by
        by_contra hge
        exact htry (by simp [h12, Nat.le_of_not_lt hge])
      have h3 : ¬ q.length = 3 := by omega
      rw [heq.1, heq.2]
      simp [h12, h3]
      omega
    · by_cases h3 : q.length = 3
      · have hlt : c.threeSizedCount < M.maxThrees := by
          by_contra hge
          have hcl : (q.length = 1 ∨ q.length = 2) ∧
              c.oneOrTwoSizedCount ≥ M.maxOnesOrTwos ∨
              ¬((q.length = 1 ∨ q.length = 2) ∧
                c.oneOrTwoSizedCount ≥ M.maxOnesOrTwos) := em _
          exact htry (by simp [h12, h3, Nat.le_of_not_lt hge])
        rw [heq.1, heq.2]
        simp [h12, h3]
        omega
      · rw [heq.1, heq.2]
        simp [h12, h3]
        omega
  refine ⟨?_, ⟨rfl, rfl⟩, fun hc => step_eq b p b2 hc⟩
  induction hr with
  | init => exact ⟨Nat.le_refl 0 |>.trans (by simp [M.Board.new, M.maxOnesOrTwos]),
      by simp [M.Board.new]⟩
  | step c c2 q _ hc ih => exact budget c q c2 hc ih

/-- **C6 witness**: the counter invariant instantiated at the configured 3×3
starting board, the unit piece, and the board that results from placing it. -/
theorem c6_counter_invariant_witness :
    (((M.Board.new 3 3).oneOrTwoSizedCount ≤ M.maxOnesOrTwos ∧
        (M.Board.new 3 3).threeSizedCount ≤ M.maxThrees) ∧
      ((M.Board.new 3 3).oneOrTwoSizedCount = 0 ∧
        (M.Board.new 3 3).threeSizedCount = 0) ∧
      ((M.Board.new 3 3).addClone [((0 : Int), (0 : Int))] =
          some ((M.Board.new 3 3).addAtPosition [((0 : Int), (0 : Int))]
            ((0 : Int), (0 : Int))) →
        ((M.Board.new 3 3).addAtPosition [((0 : Int), (0 : Int))]
              ((0 : Int), (0 : Int))).oneOrTwoSizedCount =
            (M.Board.new 3 3).oneOrTwoSizedCount +
              (if List.length [((0 : Int), (0 : Int))] = 1 ∨
                  List.length [((0 : Int), (0 : Int))] = 2 then 1 else 0) ∧
          ((M.Board.new 3 3).addAtPosition [((0 : Int), (0 : Int))]
                ((0 : Int), (0 : Int))).threeSizedCount =
            (M.Board.new 3 3).threeSizedCount +
              (if List.length [((0 : Int), (0 : Int))] = 3 then 1 else 0))) :=
  c6_counter_invariant 3 3 (M.Board.new 3 3) [((0 : Int), (0 : Int))]
    ((M.Board.new 3 3).addAtPosition [((0 : Int), (0 : Int))] ((0 : Int), (0 : Int)))
    M.Reachable.init

namespace M

/-- Every catalog shape contains the origin. -/
theorem allPolys_origin : ∀ p ∈ allPolyominos, ((0 : Int), (0 : Int)) ∈ p := by
  decide

/-- The catalog has no duplicate shapes. -/
theorem allPolys_nodup : allPolyominos.Nodup := by
  decide

/-- A successful placement appends exactly the placed shape to the
placement sequence. -/
theorem addClone_polys (b : Board) (p : Poly) (nb : Board)
    (h : b.addClone p = some nb) : nb.polyominos = b.polyominos ++ [p] := by
  unfold Board.addClone at h
  cases ht : b.tryAdd p with
  | none => rw [ht] at h; simp at h
  | some base =>
    rw [ht] at h
    simp only [Option.map_some', Option.some.injEq] at h
    subst h
    rfl

theorem setCell_length (cells : List (Option Nat)) (w : Nat) (x y : Int) (v : Option Nat) :
    (setCell cells w x y v).length = cells.length := by
  unfold setCell
  split <;> simp

/-- The cell-writing fold of `add_at_position` preserves the cell count. -/
theorem foldSet_length (w : Nat) (base : Int × Int) (v : Nat) (l : List Coord) :
    ∀ cells : List (Option Nat),
      (l.foldl (fun cs c => setCell cs w (base.1 + c.1) (base.2 + c.2) (some v)) cells).length =
        cells.length := by
  induction l with
  | nil => intro cells; rfl
  | cons c t ih =>
    intro cells
    rw [List.foldl_cons, ih, setCell_length]

/-- Successful placements preserve structural well-formedness. -/
theorem addClone_WF (b : Board) (p : Poly) (nb : Board) (hwf : WF b)
    (h : b.addClone p = some nb) : WF nb := by
  unfold Board.addClone at h
  cases ht : b.tryAdd p with
  | none => rw [ht] at h; simp at h
  | some base =>
    rw [ht] at h
    simp only [Option.map_some', Option.some.injEq] at h
    subst h
    unfold WF Board.addAtPosition
    simpa [foldSet_length] using hwf

/-- Writing a `some` value never turns an occupied cell empty. -/
theorem setCell_isSome_mono (cells : List (Option Nat)) (w : Nat) (x y : Int) (v : Nat)
    (i : Nat) (h : (cells.getD i none).isSome) :
    ((setCell cells w x y (some v)).getD i none).isSome := by
  unfold setCell
  split
  · rw [List.getD_eq_getElem?_getD, List.getElem?_set]
    rw [List.getD_eq_getElem?_getD] at h
    by_cases he : x.toNat + y.toNat * w = i
    · rw [if_pos he]
      split
      · simp
      · next hlen =>
        have hnone : cells[i]? = none := by
          rw [List.getElem?_eq_none_iff]
          omega
        rw [hnone] at h
        simp at h
    · rw [if_neg he]
      exact h
  · exact h

/-- The cell-writing fold never turns an occupied cell empty. -/
theorem foldSet_isSome_mono (w : Nat) (base : Int × Int) (v : Nat) (l : List Coord) (i : Nat) :
    ∀ cells : List (Option Nat), (cells.getD i none).isSome →
      (((l.foldl (fun cs c => setCell cs w (base.1 + c.1) (base.2 + c.2) (some v)) cells).getD
          i none).isSome) := by
  induction l with
  | nil => intro cells h; exact h
  | cons c t ih =>
    intro cells h
    rw [List.foldl_cons]
    exact ih _ (setCell_isSome_mono _ _ _ _ _ _ h)

/-- After the cell-writing fold of a shape containing the origin, the anchor
cell is occupied. -/
theorem foldSet_anchor (w : Nat) (base : Int × Int) (v : Nat) (l : List Coord)
    (hor : ((0 : Int), (0 : Int)) ∈ l) :
    ∀ cells : List (Option Nat),
      base.1.toNat + base.2.toNat * w < cells.length → 0 ≤ base.1 → 0 ≤ base.2 →
      (((l.foldl (fun cs c => setCell cs w (base.1 + c.1) (base.2 + c.2) (some v)) cells).getD
          (base.1.toNat + base.2.toNat * w) none).isSome) := by
  induction l with
  | nil => cases hor
  | cons c t ih =>
    intro cells hlen h0x h0y
    rw [List.foldl_cons]
    rcases List.mem_cons.mp hor with hc | hc
    · subst hc
      apply foldSet_isSome_mono
      unfold setCell
      rw [if_pos (by constructor <;> simpa)]
      simp only [add_zero]
      rw [List.getD_eq_getElem?_getD, List.getElem?_set, if_pos rfl, if_pos hlen]
      simp
    · apply ih hc
      · rw [setCell_length]; exact hlen
      · exact h0x
      · exact h0y

/-- Unfolding a successful `get` at an empty cell into its bounds facts. -/
theorem get_some_none (b : Board) (x y : Int) (h : b.get x y = some none) :
    0 ≤ x ∧ 0 ≤ y ∧ x < (b.width : Int) ∧ y < (b.height : Int) ∧
      b.cells.getD (x.toNat + y.toNat * b.width) none = none := by
  unfold Board.get at h
  split at h
  · next hin =>
    unfold Board.isInBounds at hin
    refine ⟨by omega, by omega, by omega, by omega, by simpa using h⟩
  · simp at h

/-- In-bounds coordinates index inside the cell vector. -/
theorem idx_lt (b : Board) (x y : Int) (hwf : WF b)
    (h0x : 0 ≤ x) (h0y : 0 ≤ y) (hx : x < (b.width : Int)) (hy : y < (b.height : Int)) :
    x.toNat + y.toNat * b.width < b.cells.length := by
  rw [hwf]
  have hx2 : x.toNat < b.width := by omega
  have hy2 : y.toNat < b.height := by omega
  calc x.toNat + y.toNat * b.width < b.width + y.toNat * b.width := by omega
    _ = (y.toNat + 1) * b.width := by ring
    _ ≤ b.height * b.width := Nat.mul_le_mul_right _ (by omega)
    _ = b.width * b.height := Nat.mul_comm _ _

/-- Pointwise occupation monotonicity bounds the number of empty cells. -/
theorem countP_none_le (l : List (Option Nat)) :
    ∀ l2 : List (Option Nat), l.length = l2.length →
      (∀ i, i < l.length → (l.getD i none).isSome → (l2.getD i none).isSome) →
      l2.countP (fun c => c.isNone) ≤ l.countP (fun c => c.isNone) := by
  induction l with
  | nil =>
    intro l2 hlen _
    cases l2 with
    | nil => exact Nat.le_refl _
    | cons a2 t2 => simp at hlen
  | cons a t ih =>
    intro l2 hlen hmono
    cases l2 with
    | nil => simp at hlen
    | cons a2 t2 =>
      have h0 := hmono 0 (by simp)
      have ht : ∀ i, i < t.length → (t.getD i none).isSome → (t2.getD i none).isSome := by
        intro i hi hsome
        have := hmono (i + 1) (by simpa using Nat.succ_lt_succ hi)
        simpa [List.getD_cons_succ] using this hsome
      have htail := ih t2 (by simpa using hlen) ht
      cases a with
      | none => cases a2 <;> simp <;> omega
      | some v =>
        have h0s := h0 (by simp [List.getD_cons_zero])
        simp [List.getD_cons_zero] at h0s
        cases a2 with
        | none => simp at h0s
        | some v2 =>
          simp
          omega

/-- If one empty cell becomes occupied and no occupied cell becomes empty,
the number of empty cells strictly decreases. -/
theorem countP_none_lt (l : List (Option Nat)) :
    ∀ (l2 : List (Option Nat)) (i0 : Nat), l.length = l2.length →
      (∀ i, i < l.length → (l.getD i none).isSome → (l2.getD i none).isSome) →
      i0 < l.length → l.getD i0 none = none → (l2.getD i0 none).isSome →
      l2.countP (fun c => c.isNone) < l.countP (fun c => c.isNone) := by
  induction l with
  | nil =>
    intro l2 i0 _ _ hi0
    exact absurd hi0 (by simp)
  | cons a t ih =>
    intro l2 i0 hlen hmono hi0 hnone hsome
    cases l2 with
    | nil => simp at hlen
    | cons a2 t2 =>
      have ht : ∀ i, i < t.length → (t.getD i none).isSome → (t2.getD i none).isSome := by
        intro i hi hs
        have := hmono (i + 1) (by simpa using Nat.succ_lt_succ hi)
        simpa [List.getD_cons_succ] using this hs
      simp only [List.countP_cons]
      cases i0 with
      | zero =>
        rw [List.getD_cons_zero] at hnone
        rw [List.getD_cons_zero] at hsome
        subst hnone
        have htail := countP_none_le t t2 (by simpa using hlen) ht
        cases a2 with
        | none => simp at hsome
        | some v =>
          simp
          omega
      | succ i =>
        rw [List.getD_cons_succ] at hnone
        rw [List.getD_cons_succ] at hsome
        have htail := ih t2 i (by simpa using hlen) ht (by simpa using hi0) hnone hsome
        have h0 := hmono 0 (by simp)
        cases a with
        | none => cases a2 <;> simp <;> omega
        | some v =>
          have h0s := h0 (by simp [List.getD_cons_zero])
          simp [List.getD_cons_zero] at h0s
          cases a2 with
          | none => simp at h0s
          | some v2 =>
            simp
            omega

/-- A successful `try_add` reports the first open cell as anchor. -/
theorem tryAdd_find (b : Board) (p : Poly) (base : Int × Int)
    (h : b.tryAdd p = some base) : b.findFirstOpenCell = some base := by
  unfold Board.tryAdd at h
  split at h
  · simp at h
  split at h
  · simp at h
  cases hf : b.findFirstOpenCell with
  | none => rw [hf] at h; simp at h
  | some base0 =>
    rw [hf] at h
    simp only [Option.some_bind] at h
    rcases checkCoords_some b base0 p with hn | hs
    · rw [hn] at h; simp at h
    · rw [hs] at h
      exact h

/-- The first open cell really is open. -/
theorem findFirst_get (b : Board) (base : Int × Int)
    (h : b.findFirstOpenCell = some base) : b.get base.1 base.2 = some none := by
  unfold Board.findFirstOpenCell at h
  have := List.find?_some h
  simpa using this

/-- A successful placement of a shape containing the origin strictly
decreases the number of empty cells. -/
theorem addClone_emptyCount (b : Board) (p : Poly) (nb : Board) (hwf : WF b)
    (hor : ((0 : Int), (0 : Int)) ∈ p) (h : b.addClone p = some nb) :
    emptyCount nb < emptyCount b := by
  unfold Board.addClone at h
  cases ht : b.tryAdd p with
  | none => rw [ht] at h; simp at h
  | some base =>
    rw [ht] at h
    simp only [Option.map_some', Option.some.injEq] at h
    subst h
    have hfind := tryAdd_find b p base ht
    have hbase := findFirst_get b base hfind
    obtain ⟨h0x, h0y, hx, hy, hcell⟩ := get_some_none b base.1 base.2 hbase
    have hidx := idx_lt b base.1 base.2 hwf h0x h0y hx hy
    unfold emptyCount Board.addAtPosition
    apply countP_none_lt b.cells _ (base.1.toNat + base.2.toNat * b.width)
    · exact (foldSet_length b.width base b.polyominos.length p b.cells).symm
    · intro i _ hs
      exact foldSet_isSome_mono b.width base b.polyominos.length p i b.cells hs
    · exact hidx
    · exact hcell
    · exact foldSet_anchor b.width base b.polyominos.length p hor b.cells hidx h0x h0y

/-- A well-formed board with no empty cell is full. -/
theorem emptyCount_zero_full (b : Board) (hwf : WF b) (he : emptyCount b = 0) :
    b.isFull = true := by
  unfold Board.isFull
  rw [Option.isNone_iff_eq_none]
  unfold Board.findFirstOpenCell
  rw [List.find?_eq_none]
  intro c _
  simp only [beq_iff_eq]
  intro hget
  obtain ⟨h0x, h0y, hx, hy, hcell⟩ := get_some_none b c.1 c.2 hget
  have hidx := idx_lt b c.1 c.2 hwf h0x h0y hx hy
  unfold emptyCount at he
  rw [List.countP_eq_zero] at he
  have hmem : (none : Option Nat) ∈ b.cells := by
    rw [List.getD_eq_getElem?_getD, List.getElem?_eq_getElem hidx] at hcell
    simp only [Option.getD_some] at hcell
    rw [← hcell]
    exact List.getElem_mem hidx
  simpa using he none hmem

/-- No placement succeeds on a full board. -/
theorem isFull_addClone (b : Board) (p : Poly) (hf : b.isFull = true) :
    b.addClone p = none := by
  have hfind : b.findFirstOpenCell = none := by
    unfold Board.isFull at hf
    exact Option.isNone_iff_eq_none.mp hf
  have ht : b.tryAdd p = none := by
    unfold Board.tryAdd
    split
    · rfl
    split
    · rfl
    rw [hfind]
    rfl
  unfold Board.addClone
  rw [ht]
  rfl

/-- Function congruence for `flatMap` over the members of a list. -/
theorem flatMap_congr_mem {α β : Type} (l : List α) (f g : α → List β)
    (h : ∀ a ∈ l, f a = g a) : l.flatMap f = l.flatMap g := by
  induction l with
  | nil => rfl
  | cons a t ih =>
    simp only [List.flatMap_cons]
    rw [h a (by simp), ih (fun x hx => h x (by simp [hx]))]

theorem mem_children (b : Board) (nb : Board) :
    nb ∈ children b ↔ ∃ p ∈ allPolyominos, b.addClone p = some nb := by
  unfold children
  exact List.mem_filterMap

/-- Every child of a well-formed board is well-formed, has strictly fewer
empty cells, and extends the placement sequence by one catalog shape. -/
theorem children_spec (b : Board) (hwf : WF b) (nb : Board) (h : nb ∈ children b) :
    WF nb ∧ emptyCount nb < emptyCount b ∧
      ∃ p ∈ allPolyominos, nb.polyominos = b.polyominos ++ [p] ∧ b.addClone p = some nb := by
  obtain ⟨p, hp, hc⟩ := (mem_children b nb).mp h
  exact ⟨addClone_WF b p nb hwf hc,
    addClone_emptyCount b p nb hwf (allPolys_origin p hp) hc,
    p, hp, addClone_polys b p nb hc, hc⟩

theorem children_full_nil (b : Board) (hf : b.isFull = true) : children b = [] := by
  unfold children
  rw [List.filterMap_eq_nil_iff]
  intro p _
  exact isFull_addClone b p hf

/-- One loop body over the whole catalog splits the children into the full
boards (emitted) and the rest (pushed), each in catalog order. -/
theorem expand_eq (b : Board) :
    expand b = ((children b).filter (fun nb => nb.isFull),
      (children b).filter (fun nb => !nb.isFull)) := by
  unfold expand children
  have h : ∀ (ps : List Poly) (acc : List Board × List Board),
      ps.foldl
        (fun acc p =>
          match b.addClone p with
          | some nb => if nb.isFull then (acc.1 ++ [nb], acc.2) else (acc.1, acc.2 ++ [nb])
          | none => acc)
        acc =
      (acc.1 ++ (ps.filterMap (fun p => b.addClone p)).filter (fun nb => nb.isFull),
        acc.2 ++ (ps.filterMap (fun p => b.addClone p)).filter (fun nb => !nb.isFull)) := by
    intro ps
    induction ps with
    | nil => intro acc; simp
    | cons p t ih =>
      intro acc
      rw [List.foldl_cons, List.filterMap_cons]
      cases hc : b.addClone p with
      | none =>
        simp only [hc]
        rw [ih]
      | some nb =>
        by_cases hf : nb.isFull = true
        · simp only [hc, hf, if_pos, List.filter_cons, Bool.not_true, if_true]
          rw [ih]
          simp [List.append_assoc]
        · simp only [hc, List.filter_cons, hf, Bool.not_eq_true] at *
          rw [if_neg (by simp [hf]), ih]
          simp [hf, List.append_assoc]
  rw [h allPolyominos ([], [])]
  simp

/-- The enumeration of full descendants is independent of the recursion
budget once the budget covers the number of empty cells. -/
theorem fullDescAux_stable : ∀ (n : Nat) (b : Board), WF b → emptyCount b ≤ n →
    fullDescAux n b = fullDescAux (emptyCount b) b := by
  intro n
  induction n using Nat.strong_induction_on with
  | _ n ih =>
    intro b hwf hle
    cases n with
    | zero =>
      have : emptyCount b = 0 := Nat.le_zero.mp hle
      rw [this]
    | succ m =>
      cases he : emptyCount b with
      | zero =>
        have hf := emptyCount_zero_full b hwf he
        simp only [fullDescAux, children_full_nil b hf, List.flatMap_nil]
      | succ e =>
        simp only [fullDescAux]
        apply flatMap_congr_mem
        intro nb hnb
        obtain ⟨hwf2, hlt, _⟩ := children_spec b hwf nb hnb
        by_cases hfull : nb.isFull = true
        · rw [if_pos hfull, if_pos hfull]
        · rw [if_neg hfull, if_neg hfull]
          rw [he] at hlt
          have h1 : fullDescAux m nb = fullDescAux (emptyCount nb) nb :=
            ih m (Nat.lt_succ_self m) nb hwf2 (by omega)
          have h2 : fullDescAux e nb = fullDescAux (emptyCount nb) nb :=
            ih e (by omega) nb hwf2 (by omega)
          rw [h1, h2]

/-- Every enumerated full descendant extends the placement sequence by a
nonempty suffix. -/
theorem fullDesc_polys : ∀ (n : Nat) (c x : Board), x ∈ fullDescAux n c →
    ∃ t, t ≠ [] ∧ x.polyominos = c.polyominos ++ t := by
  intro n
  induction n with
  | zero =>
    intro c x hx
    simp [fullDescAux] at hx
  | succ n ih =>
    intro c x hx
    simp only [fullDescAux] at hx
    rw [List.mem_flatMap] at hx
    obtain ⟨nb, hnb, hx⟩ := hx
    obtain ⟨p, hp, hcl⟩ := (mem_children c nb).mp hnb
    have hpol := addClone_polys c p nb hcl
    by_cases hf : nb.isFull = true
    · rw [if_pos hf] at hx
      simp only [List.mem_singleton] at hx
      subst hx
      exact ⟨[p], by simp, hpol⟩
    · rw [if_neg hf] at hx
      obtain ⟨t, htne, hteq⟩ := ih nb x hx
      refine ⟨p :: t, by simp, ?_⟩
      rw [hteq, hpol, List.append_assoc, List.singleton_append]

/-- Rejected placements falsify the replay of any sequence starting there. -/
theorem replayFull_cons_none (b : Board) (p : Poly) (t : List Poly)
    (hc : b.addClone p = none) : replayFull b (p :: t) = false := by
  unfold replayFull
  simp only [replay, hc, Option.none_bind]

/-- A successful first placement reduces the replay to the child board. -/
theorem replayFull_cons_some (b : Board) (p : Poly) (nb : Board) (t : List Poly)
    (hc : b.addClone p = some nb) : replayFull b (p :: t) = replayFull nb t := by
  unfold replayFull
  simp only [replay, hc, Option.some_bind]

/-- The central counting lemma: among the enumerated full descendants of a
non-full well-formed board `b`, the boards whose placement sequence extends
`b` by exactly `s` number one when `s` is a sequence of catalog shapes whose
replay from `b` fills the board, and zero otherwise. -/
theorem fullDesc_count : ∀ (n : Nat) (s : List Poly) (b : Board),
    WF b → b.isFull = false → emptyCount b ≤ n →
    (fullDescAux n b).countP (fun x => x.polyominos == b.polyominos ++ s) =
      if (∀ p ∈ s, p ∈ allPolyominos) ∧ replayFull b s = true then 1 else 0 := by
  intro n
  induction n with
  | zero =>
    intro s b hwf hnf hle
    have hfull := emptyCount_zero_full b hwf (Nat.le_zero.mp hle)
    rw [hfull] at hnf
    cases hnf
  | succ n ih =>
    intro s b hwf hnf hle
    cases s with
    | nil =>
      have hr : replayFull b [] = false := by
        unfold replayFull
        simp only [replay]
        exact hnf
      rw [if_neg (by rw [hr]; simp)]
      rw [List.countP_eq_zero]
      intro x hx
      obtain ⟨t, htne, hteq⟩ := fullDesc_polys (n + 1) b x hx
      simp only [beq_iff_eq, List.append_nil]
      intro hcontra
      rw [hteq] at hcontra
      exact htne (by simpa using hcontra)
    | cons p0 t =>
      simp only [fullDescAux]
      have main : ∀ ps : List Poly, ps.Nodup → (∀ q ∈ ps, q ∈ allPolyominos) →
          ((ps.filterMap (fun q => b.addClone q)).flatMap
            (fun nb => if nb.isFull = true then [nb] else fullDescAux n nb)).countP
              (fun x => x.polyominos == b.polyominos ++ (p0 :: t)) =
          if p0 ∈ ps ∧ (∀ p ∈ t, p ∈ allPolyominos) ∧ replayFull b (p0 :: t) = true
            then 1 else 0 := by
        intro ps
        induction ps with
        | nil =>
          intro _ _
          simp
        | cons q qs ihq =>
          intro hnd hsub
          have hndq := List.nodup_cons.mp hnd
          have hrest := ihq hndq.2 (fun x hx => hsub x (List.mem_cons_of_mem q hx))
          rw [List.filterMap_cons]
          cases hc : b.addClone q with
          | none =>
            rw [hrest]
            by_cases hqp : q = p0
            · subst hqp
              have hrf := replayFull_cons_none b q t hc
              rw [hrf]
              simp
            · by_cases hcond : p0 ∈ qs ∧ (∀ p ∈ t, p ∈ allPolyominos) ∧
                  replayFull b (p0 :: t) = true
              · rw [if_pos hcond, if_pos ⟨List.mem_cons_of_mem q hcond.1, hcond.2⟩]
              · rw [if_neg hcond, if_neg]
                rintro ⟨hm, hrest2⟩
                rcases List.mem_cons.mp hm with h1 | h1
                · exact hqp h1.symm
                · exact hcond ⟨h1, hrest2⟩
          | some nb =>
            simp only [List.flatMap_cons, List.countP_append]
            have hq_origin := allPolys_origin q (hsub q (List.mem_cons_self q qs))
            have hwf2 := addClone_WF b q nb hwf hc
            have hel := addClone_emptyCount b q nb hwf hq_origin hc
            have hpol := addClone_polys b q nb hc
            by_cases hqp : q = p0
            · subst hqp
              have hrest0 : ((qs.filterMap (fun q2 => b.addClone q2)).flatMap
                  (fun nb => if nb.isFull = true then [nb] else fullDescAux n nb)).countP
                    (fun x => x.polyominos == b.polyominos ++ (q :: t)) = 0 := by
                rw [hrest, if_neg]
                rintro ⟨hm, _⟩
                exact hndq.1 hm
              rw [hrest0, Nat.add_zero]
              have hrepl := replayFull_cons_some b q nb t hc
              by_cases hfull : nb.isFull = true
              · rw [if_pos hfull]
                cases t with
                | nil =>
                  have hpred : (nb.polyominos == b.polyominos ++ [q]) = true := by
                    simp [hpol]
                  have hrt : replayFull nb [] = true := by
                    unfold replayFull
                    simp only [replay]
                    exact hfull
                  have hcnd : q ∈ q :: qs ∧ (∀ p ∈ ([] : List Poly), p ∈ allPolyominos) ∧
                      replayFull b [q] = true := by
                    refine ⟨List.mem_cons_self q qs, ?_, ?_⟩
                    · intro p hp
                      simp at hp
                    · rw [hrepl]
                      exact hrt
                  simp only [List.countP_cons, List.countP_nil, hpred]
                  rw [if_pos hcnd]
                  simp
                | cons p1 t2 =>
                  have hpred : (nb.polyominos == b.polyominos ++ (q :: p1 :: t2)) = false := by
                    rw [hpol]
                    simp only [beq_eq_false_iff_ne, ne_eq, List.append_cancel_left_eq]
                    intro hcon
                    have : ([q] : List Poly).length = (q :: p1 :: t2).length := by rw [hcon]
                    simp at this
                  have hrt : replayFull nb (p1 :: t2) = false :=
                    replayFull_cons_none nb p1 t2 (isFull_addClone nb p1 hfull)
                  have hncnd : ¬(q ∈ q :: qs ∧ (∀ p ∈ p1 :: t2, p ∈ allPolyominos) ∧
                      replayFull b (q :: p1 :: t2) = true) := by
                    rintro ⟨_, _, hcon⟩
                    rw [hrepl, hrt] at hcon
                    cases hcon
                  simp only [List.countP_cons, List.countP_nil, hpred]
                  rw [if_neg hncnd]
                  simp
              · rw [if_neg hfull]
                have hfull2 : nb.isFull = false := by
                  cases hfb : nb.isFull
                  · rfl
                  · exact absurd hfb hfull
                have hpred : (fun x : Board => x.polyominos == b.polyominos ++ (q :: t)) =
                    (fun x : Board => x.polyominos == nb.polyominos ++ t) := by
                  funext x
                  rw [hpol, List.append_assoc, List.singleton_append]
                rw [hpred, ih t nb hwf2 hfull2 (by omega), hrepl]
                by_cases hcat : ∀ p ∈ t, p ∈ allPolyominos
                · by_cases hrf : replayFull nb t = true
                  · rw [if_pos ⟨hcat, hrf⟩,
                      if_pos ⟨List.mem_cons_self q qs, hcat, hrf⟩]
                  · rw [if_neg (fun h => hrf h.2), if_neg (fun h => hrf h.2.2)]
                · rw [if_neg (fun h => hcat h.1), if_neg (fun h => hcat h.2.1)]
            · have hpiece : ((if nb.isFull = true then [nb] else fullDescAux n nb).countP
                  (fun x => x.polyominos == b.polyominos ++ (p0 :: t))) = 0 := by
                rw [List.countP_eq_zero]
                intro x hx
                by_cases hfull : nb.isFull = true
                · rw [if_pos hfull] at hx
                  simp only [List.mem_singleton] at hx
                  subst hx
                  simp only [beq_iff_eq, hpol]
                  intro hcon
                  have h2 := List.append_cancel_left hcon
                  injection h2 with h1 _
                  exact hqp h1
                · rw [if_neg hfull] at hx
                  obtain ⟨u, hune, hueq⟩ := fullDesc_polys n nb x hx
                  simp only [beq_iff_eq]
                  intro hcon
                  rw [hueq, hpol, List.append_assoc, List.singleton_append] at hcon
                  have h2 := List.append_cancel_left hcon
                  injection h2 with h1 _
                  exact hqp h1
              rw [hpiece, Nat.zero_add, hrest]
              by_cases hcond : p0 ∈ qs ∧ (∀ p ∈ t, p ∈ allPolyominos) ∧
                  replayFull b (p0 :: t) = true
              · rw [if_pos hcond, if_pos ⟨List.mem_cons_of_mem q hcond.1, hcond.2⟩]
              · rw [if_neg hcond, if_neg]
                rintro ⟨hm, hrest2⟩
                rcases List.mem_cons.mp hm with h1 | h1
                · exact hqp h1.symm
                · exact hcond ⟨h1, hrest2⟩
      unfold children
      rw [main allPolyominos allPolys_nodup (fun q hq => hq)]
      by_cases hcond : p0 ∈ allPolyominos ∧ (∀ p ∈ t, p ∈ allPolyominos) ∧
          replayFull b (p0 :: t) = true
      · rw [if_pos hcond, if_pos ⟨by
          rw [List.forall_mem_cons]
          exact ⟨hcond.1, hcond.2.1⟩, hcond.2.2⟩]
      · rw [if_neg hcond, if_neg]
        rintro ⟨hall, hrf⟩
        rw [List.forall_mem_cons] at hall
        exact hcond ⟨hall.1, hall.2, hrf⟩

/-- One unfolding of the search loop: pop the top board, emit its full
children, push the rest. -/
theorem searchAux_succ_cons (n : Nat) (b : Board) (rest : List Board) :
    searchAux (n + 1) (b :: rest) =
      (children b).filter (fun nb => nb.isFull) ++
        searchAux n (((children b).filter (fun nb => !nb.isFull)).reverse ++ rest) := by
  show (let e := expand b; e.1 ++ searchAux n (e.2.reverse ++ rest)) = _
  rw [expand_eq]

/-- The pushed children of one expansion weigh strictly less than the popped
board in the termination measure. -/
theorem pushed_measure (b : Board) (hwf : WF b) (hnf : b.isFull = false) :
    stackMeasure (((children b).filter (fun nb => !nb.isFull)).reverse) + 1 ≤
      (allPolyominos.length + 1) ^ emptyCount b := by
  have hpos : 1 ≤ emptyCount b := by
    by_contra h
    have h0 : emptyCount b = 0 := by omega
    rw [emptyCount_zero_full b hwf h0] at hnf
    cases hnf
  obtain ⟨e, he⟩ := Nat.exists_eq_add_of_le hpos
  have hbound : ∀ nb ∈ ((children b).filter (fun nb => !nb.isFull)).reverse,
      (allPolyominos.length + 1) ^ emptyCount nb ≤ (allPolyominos.length + 1) ^ e := by
    intro nb hnb
    rw [List.mem_reverse] at hnb
    have hmem := (List.mem_filter.mp hnb).1
    obtain ⟨_, hlt, _⟩ := children_spec b hwf nb hmem
    exact Nat.pow_le_pow_right (by omega) (by omega)
  have hlen : (((children b).filter (fun nb => !nb.isFull)).reverse).length ≤
      allPolyominos.length := by
    rw [List.length_reverse]
    calc ((children b).filter (fun nb => !nb.isFull)).length ≤ (children b).length :=
        List.length_filter_le _ _
      _ ≤ allPolyominos.length := List.length_filterMap_le _ _
  have hsum : stackMeasure (((children b).filter (fun nb => !nb.isFull)).reverse) ≤
      (((children b).filter (fun nb => !nb.isFull)).reverse).length *
        (allPolyominos.length + 1) ^ e := by
    unfold stackMeasure
    have := List.sum_le_card_nsmul
      ((((children b).filter (fun nb => !nb.isFull)).reverse).map
        (fun nb => (allPolyominos.length + 1) ^ emptyCount nb))
      ((allPolyominos.length + 1) ^ e)
      (by
        intro x hx
        rw [List.mem_map] at hx
        obtain ⟨nb, hnb, hxe⟩ := hx
        rw [← hxe]
        exact hbound nb hnb)
    simpa [smul_eq_mul] using this
  have hXpos : 1 ≤ (allPolyominos.length + 1) ^ e := Nat.one_le_pow _ _ (by omega)
  have hmul : (((children b).filter (fun nb => !nb.isFull)).reverse).length *
      (allPolyominos.length + 1) ^ e ≤
      allPolyominos.length * (allPolyominos.length + 1) ^ e :=
    Nat.mul_le_mul_right _ hlen
  have hpow : (allPolyominos.length + 1) ^ emptyCount b =
      (allPolyominos.length + 1) * (allPolyominos.length + 1) ^ e := by
    rw [he, Nat.add_comm 1 e, Nat.pow_succ, Nat.mul_comm]
  rw [hpow]
  have : (allPolyominos.length + 1) * (allPolyominos.length + 1) ^ e =
      allPolyominos.length * (allPolyominos.length + 1) ^ e +
        (allPolyominos.length + 1) ^ e := by
    ring
  omega

/-- The emitted boards of the loop are, predicate-count-wise, exactly the
full descendants of the boards on the stack. -/
theorem searchAux_countP (q : Board → Bool) : ∀ (fuel : Nat) (stack : List Board),
    (∀ b ∈ stack, WF b ∧ b.isFull = false) → stackMeasure stack ≤ fuel →
    (searchAux fuel stack).countP q =
      (stack.map (fun b => (fullDescAux (emptyCount b) b).countP q)).sum := by
  intro fuel
  induction fuel with
  | zero =>
    intro stack hinv hm
    cases stack with
    | nil => simp [searchAux]
    | cons b rest =>
      exfalso
      have h1 : 1 ≤ (allPolyominos.length + 1) ^ emptyCount b :=
        Nat.one_le_pow _ _ (by omega)
      have : 1 ≤ stackMeasure (b :: rest) := by
        unfold stackMeasure
        simp only [List.map_cons, List.sum_cons]
        omega
      omega
  | succ n ihf =>
    intro stack hinv hm
    cases stack with
    | nil => simp [searchAux]
    | cons b rest =>
      obtain ⟨hwf, hnf⟩ := hinv b (List.mem_cons_self b rest)
      rw [searchAux_succ_cons, List.countP_append]
      have hinv2 : ∀ x ∈ ((children b).filter (fun nb => !nb.isFull)).reverse ++ rest,
          WF x ∧ x.isFull = false := by
        intro x hx
        rcases List.mem_append.mp hx with hx | hx
        · rw [List.mem_reverse] at hx
          have hmem := List.mem_filter.mp hx
          obtain ⟨hwf2, _, _⟩ := children_spec b hwf x hmem.1
          refine ⟨hwf2, ?_⟩
          have := hmem.2
          simp only [Bool.not_eq_true'] at this
          exact this
        · exact hinv x (List.mem_cons_of_mem b hx)
      have hm2 : stackMeasure (((children b).filter (fun nb => !nb.isFull)).reverse ++ rest)
          ≤ n := by
        have hp := pushed_measure b hwf hnf
        have hsplit : stackMeasure (((children b).filter (fun nb => !nb.isFull)).reverse
            ++ rest) =
            stackMeasure (((children b).filter (fun nb => !nb.isFull)).reverse) +
              stackMeasure rest := by
          unfold stackMeasure
          rw [List.map_append, List.sum_append]
        have hold : stackMeasure (b :: rest) =
            (allPolyominos.length + 1) ^ emptyCount b + stackMeasure rest := by
          unfold stackMeasure
          simp [List.map_cons, List.sum_cons]
        rw [hold] at hm
        omega
      rw [ihf _ hinv2 hm2]
      simp only [List.map_cons, List.sum_cons, List.map_append, List.sum_append,
        List.map_reverse, List.sum_reverse]
      have hone : emptyCount b = (emptyCount b - 1) + 1 := by
        by_contra h
        have h0 : emptyCount b = 0 := by omega
        rw [emptyCount_zero_full b hwf h0] at hnf
        cases hnf
      have hchild : ∀ nb ∈ children b, WF nb ∧ emptyCount nb ≤ emptyCount b - 1 := by
        intro nb hnb
        obtain ⟨hwf2, hlt, _⟩ := children_spec b hwf nb hnb
        exact ⟨hwf2, by omega⟩
      have helper : ∀ cs : List Board, (∀ nb ∈ cs, WF nb ∧ emptyCount nb ≤ emptyCount b - 1) →
          (cs.filter (fun nb => nb.isFull)).countP q +
            ((cs.filter (fun nb => !nb.isFull)).map
              (fun nb => (fullDescAux (emptyCount nb) nb).countP q)).sum =
          (cs.flatMap (fun nb => if nb.isFull = true then [nb]
            else fullDescAux (emptyCount b - 1) nb)).countP q := by
        intro cs
        induction cs with
        | nil => intro _; simp
        | cons nb cs2 ihc =>
          intro hcs
          obtain ⟨hwf2, hle2⟩ := hcs nb (List.mem_cons_self nb cs2)
          have ihc2 := ihc (fun x hx => hcs x (List.mem_cons_of_mem nb hx))
          by_cases hfull : nb.isFull = true
          · rw [List.filter_cons, List.filter_cons, List.flatMap_cons]
            rw [if_pos hfull, if_neg (by simp [hfull]), if_pos hfull]
            rw [List.countP_cons, List.countP_append, ← ihc2]
            have hsingle : List.countP q [nb] = if q nb then 1 else 0 := by
              simp [List.countP_cons]
            rw [hsingle]
            omega
          · have hfull2 : nb.isFull = false := by
              cases hfb : nb.isFull
              · rfl
              · exact absurd hfb hfull
            rw [List.filter_cons, List.filter_cons, List.flatMap_cons]
            rw [if_neg (by simp [hfull2]), if_pos (by simp [hfull2]),
              if_neg (by simp [hfull2])]
            rw [List.map_cons, List.sum_cons, List.countP_append, ← ihc2,
              fullDescAux_stable (emptyCount b - 1) nb hwf2 hle2]
            omega
      rw [hone, fullDescAux]
      rw [← helper (children b) hchild]
      omega

/-- Every board the loop emits is a full board reachable by replaying some
sequence from some stack entry. -/
theorem searchAux_mem : ∀ (fuel : Nat) (stack : List Board) (x : Board),
    x ∈ searchAux fuel stack →
    ∃ b0 ∈ stack, ∃ t, replay b0 t = some x ∧ x.isFull = true := by
  intro fuel
  induction fuel with
  | zero =>
    intro stack x hx
    simp [searchAux] at hx
  | succ n ihf =>
    intro stack x hx
    cases stack with
    | nil => simp [searchAux] at hx
    | cons b rest =>
      rw [searchAux_succ_cons] at hx
      rcases List.mem_append.mp hx with hx | hx
      · have hmem := List.mem_filter.mp hx
        obtain ⟨p, _, hc⟩ := (mem_children b x).mp hmem.1
        refine ⟨b, List.mem_cons_self b rest, [p], ?_, hmem.2⟩
        simp only [replay, hc, Option.some_bind]
      · obtain ⟨b0, hb0, t, hrep, hf⟩ := ihf _ x hx
        rcases List.mem_append.mp hb0 with hb0 | hb0
        · rw [List.mem_reverse] at hb0
          have hmem := List.mem_filter.mp hb0
          obtain ⟨p, _, hc⟩ := (mem_children b b0).mp hmem.1
          refine ⟨b, List.mem_cons_self b rest, p :: t, ?_, hf⟩
          simp only [replay, hc, Option.some_bind]
          exact hrep
        · exact ⟨b0, List.mem_cons_of_mem b hb0, t, hrep, hf⟩

/-- Replaying a sequence appends exactly that sequence to the placement
history. -/
theorem replay_polys : ∀ (t : List Poly) (b x : Board), replay b t = some x →
    x.polyominos = b.polyominos ++ t := by
  intro t
  induction t with
  | nil =>
    intro b x h
    simp only [replay, Option.some.injEq] at h
    subst h
    simp
  | cons p t2 ih =>
    intro b x h
    simp only [replay] at h
    cases hc : b.addClone p with
    | none => rw [hc] at h; simp at h
    | some nb =>
      rw [hc] at h
      simp only [Option.some_bind] at h
      rw [ih nb x h, addClone_polys b p nb hc, List.append_assoc, List.singleton_append]

end M

/-- **C2**: the backtracking search over the configured 3×3 board emits, for
every sequence of catalog shapes whose replay (placing each shape at the
first open cell, within bounds, without overlap, within the resource budget)
completely fills the board, exactly one completed board carrying exactly that
placement sequence — and every emitted board is full and is the replay of its
own placement sequence, so no board with an illegal or incomplete sequence is
ever emitted. -/
theorem c2_search_enumeration (s : List Poly) :
    (M.mainSearch.countP (fun x => x.polyominos == s) =
      if (∀ p ∈ s, p ∈ allPolyominos) ∧ M.replayFull (M.Board.new 3 3) s = true
        then 1 else 0) ∧
    (M.mainSearch.all
      (fun x => x.isFull && (M.replay (M.Board.new 3 3) x.polyominos == some x)) = true) := by
  have hwf : M.WF (M.Board.new 3 3) := by
    unfold M.WF M.Board.new
    simp
  have hnf : (M.Board.new 3 3).isFull = false := by decide
  have hempty : M.emptyCount (M.Board.new 3 3) = 9 := by decide
  constructor
  · have hcount := M.searchAux_countP (fun x => x.polyominos == s) M.searchFuel
      [M.Board.new 3 3]
      (by
        intro x hx
        simp only [List.mem_singleton] at hx
        subst hx
        exact ⟨hwf, hnf⟩)
      (by
        unfold M.stackMeasure M.searchFuel
        simp [hempty])
    unfold M.mainSearch
    rw [hcount]
    simp only [List.map_cons, List.map_nil, List.sum_cons, List.sum_nil, Nat.add_zero]
    have hpred : (fun x : M.Board => x.polyominos == s) =
        (fun x : M.Board => x.polyominos == (M.Board.new 3 3).polyominos ++ s) := by
      funext x
      rfl
    rw [hpred, M.fullDesc_count (M.emptyCount (M.Board.new 3 3)) s (M.Board.new 3 3) hwf hnf
      (Nat.le_refl _)]
  · rw [List.all_eq_true]
    intro x hx
    obtain ⟨b0, hb0, t, hrep, hfull⟩ := M.searchAux_mem M.searchFuel _ x hx
    simp only [List.mem_singleton] at hb0
    subst hb0
    have hpol := M.replay_polys t _ x hrep
    simp only [show (M.Board.new 3 3).polyominos = [] from rfl, List.nil_append] at hpol
    subst hpol
    rw [hfull, hrep]
    simp

namespace BR

/-- A membership description of the row-major grid traversal. -/
theorem mem_gridPositions_iff (w h : Nat) (x y : Int) :
    ((x, y) ∈ gridPositions w h) ↔ (0 ≤ x ∧ x < (w : Int) ∧ 0 ≤ y ∧ y < (h : Int)) := by
  unfold gridPositions
  rw [List.mem_flatMap]
  constructor
  · rintro ⟨yn, hyn, hmem⟩
    rw [List.mem_range] at hyn
    rw [List.mem_map] at hmem
    obtain ⟨xn, hxn, heq⟩ := hmem
    rw [List.mem_range] at hxn
    rw [Prod.mk.injEq] at heq
    obtain ⟨h1, h2⟩ := heq
    rw [Int.ofNat_eq_coe] at h1 h2
    refine ⟨?_, ?_, ?_, ?_⟩ <;> omega
  · rintro ⟨h0x, hx, h0y, hy⟩
    refine ⟨y.toNat, ?_, ?_⟩
    · rw [List.mem_range]
      omega
    · rw [List.mem_map]
      refine ⟨x.toNat, ?_, ?_⟩
      · rw [List.mem_range]
        omega
      · rw [Prod.mk.injEq, Int.ofNat_eq_coe, Int.ofNat_eq_coe]
        constructor <;> omega

/-- Unfolding a successful `get` at an empty cell into its bounds facts. -/
theorem get_some_noneB (b : Board) (x y : Int) (h : b.get x y = some none) :
    0 ≤ x ∧ 0 ≤ y ∧ x < (b.width : Int) ∧ y < (b.height : Int) ∧
      b.cells.getD (x.toNat + y.toNat * b.width) none = none := by
  unfold Board.get at h
  split at h
  · next hin =>
    unfold Board.isInBounds at hin
    refine ⟨by omega, by omega, by omega, by omega, by simpa using h⟩
  · simp at h

/-- In-bounds coordinates index inside the cell vector. -/
theorem idx_ltB (b : Board) (x y : Int) (hwf : WF b)
    (h0x : 0 ≤ x) (h0y : 0 ≤ y) (hx : x < (b.width : Int)) (hy : y < (b.height : Int)) :
    x.toNat + y.toNat * b.width < b.cells.length := by
  rw [hwf]
  have hx2 : x.toNat < b.width := by omega
  have hy2 : y.toNat < b.height := by omega
  calc x.toNat + y.toNat * b.width < b.width + y.toNat * b.width := by omega
    _ = (y.toNat + 1) * b.width := by ring
    _ ≤ b.height * b.width := Nat.mul_le_mul_right _ (by omega)
    _ = b.width * b.height := Nat.mul_comm _ _

/-- Row-major indexing is injective on coordinates with `x` in range. -/
theorem idx_inj (w : Nat) (x y x2 y2 : Int) (h0x : 0 ≤ x) (hx : x < (w : Int))
    (h0y : 0 ≤ y) (h0x2 : 0 ≤ x2) (hx2 : x2 < (w : Int)) (h0y2 : 0 ≤ y2)
    (heq : x.toNat + y.toNat * w = x2.toNat + y2.toNat * w) : x = x2 ∧ y = y2 := by
  have hw : 0 < w := by omega
  have hm1 : (x.toNat + y.toNat * w) % w = x.toNat := by
    rw [Nat.add_mul_mod_self_right]
    exact Nat.mod_eq_of_lt (by omega)
  have hm2 : (x2.toNat + y2.toNat * w) % w = x2.toNat := by
    rw [Nat.add_mul_mod_self_right]
    exact Nat.mod_eq_of_lt (by omega)
  have hd1 : (x.toNat + y.toNat * w) / w = y.toNat := by
    rw [Nat.add_mul_div_right _ _ hw, Nat.div_eq_of_lt (by omega)]
    omega
  have hd2 : (x2.toNat + y2.toNat * w) / w = y2.toNat := by
    rw [Nat.add_mul_div_right _ _ hw, Nat.div_eq_of_lt (by omega)]
    omega
  have hxe : x.toNat = x2.toNat := by rw [← hm1, ← hm2, heq]
  have hye : y.toNat = y2.toNat := by rw [← hd1, ← hd2, heq]
  omega

/-- Successful coordinate checks certify every anchored coordinate. -/
theorem checkCoords_all (b : Board) (base base2 : Int × Int) :
    ∀ l : List Coord, b.checkCoords base l = some base2 →
      base2 = base ∧ ∀ c ∈ l, b.get (base.1 + c.1) (base.2 + c.2) = some none := by
  intro l
  induction l with
  | nil =>
    intro h
    simp only [Board.checkCoords, Option.some.injEq] at h
    exact ⟨h.symm, by simp⟩
  | cons c rest ih =>
    intro h
    unfold Board.checkCoords at h
    split at h
    · next hc =>
      obtain ⟨hb, hrest⟩ := ih h
      refine ⟨hb, ?_⟩
      intro c2 hc2
      rcases List.mem_cons.mp hc2 with h2 | h2
      · subst h2; exact hc
      · exact hrest c2 h2
    · cases h

/-- Unpacking a successful `add_clone`: the anchor is the first open cell and
every anchored coordinate is in bounds and empty. -/
theorem addClone_spec (b : Board) (p : Poly) (nb : Board)
    (h : b.addClone p = some nb) :
    ∃ base, b.findFirstOpenCell = some base ∧ nb = b.addAtPosition p base ∧
      ∀ c ∈ p, b.get (base.1 + c.1) (base.2 + c.2) = some none := by
  unfold Board.addClone Board.tryAdd at h
  cases hf : b.findFirstOpenCell with
  | none => rw [hf] at h; simp at h
  | some base0 =>
    rw [hf] at h
    simp only [Option.some_bind] at h
    cases hc : b.checkCoords base0 p with
    | none => rw [hc] at h; simp at h
    | some base =>
      rw [hc] at h
      simp only [Option.map_some', Option.some.injEq] at h
      obtain ⟨hb, hall⟩ := checkCoords_all b base0 base p hc
      refine ⟨base0, rfl, ?_, hall⟩
      rw [← h, hb]

/-- The cell-writing fold, described cell by cell: the anchored coordinates
of the placed shape now hold the new piece index, everything else is
unchanged. -/
theorem foldSet_getD (w h : Nat) (base : Int × Int) (v : Nat) :
    ∀ (l : List Coord) (cells : List (Option Nat)), cells.length = w * h →
      (∀ c ∈ l, 0 ≤ base.1 + c.1 ∧ base.1 + c.1 < (w : Int) ∧
        0 ≤ base.2 + c.2 ∧ base.2 + c.2 < (h : Int)) →
      ∀ x y : Int, 0 ≤ x → x < (w : Int) → 0 ≤ y → y < (h : Int) →
      (l.foldl (fun cs c => setCell cs w (base.1 + c.1) (base.2 + c.2) (some v)) cells).getD
          (x.toNat + y.toNat * w) none =
        (if ∃ c ∈ l, x = base.1 + c.1 ∧ y = base.2 + c.2 then some v
          else cells.getD (x.toNat + y.toNat * w) none) := by
  intro l
  induction l with
  | nil =>
    intro cells hlen hin x y h0x hx h0y hy
    simp
  | cons c rest ih =>
    intro cells hlen hin x y h0x hx h0y hy
    rw [List.foldl_cons]
    have hc := hin c (List.mem_cons_self c rest)
    have hlen2 : (setCell cells w (base.1 + c.1) (base.2 + c.2) (some v)).length = w * h := by
      rw [M.setCell_length]; exact hlen
    rw [ih _ hlen2 (fun c2 hc2 => hin c2 (List.mem_cons_of_mem c hc2)) x y h0x hx h0y hy]
    by_cases hrest : ∃ c2 ∈ rest, x = base.1 + c2.1 ∧ y = base.2 + c2.2
    · rw [if_pos hrest, if_pos ?_]
      obtain ⟨c2, hm, he⟩ := hrest
      exact ⟨c2, List.mem_cons_of_mem c hm, he⟩
    · rw [if_neg hrest]
      by_cases hhit : x = base.1 + c.1 ∧ y = base.2 + c.2
      · rw [if_pos ⟨c, List.mem_cons_self c rest, hhit⟩]
        unfold setCell
        rw [if_pos ⟨hc.1, hc.2.2.1⟩]
        rw [hhit.1, hhit.2]
        have hidxlt : (base.1 + c.1).toNat + (base.2 + c.2).toNat * w < cells.length :=
          idx_ltB ⟨cells, [], w, h⟩ (base.1 + c.1) (base.2 + c.2) hlen hc.1 hc.2.2.1
            hc.2.1 hc.2.2.2
        rw [List.getD_eq_getElem?_getD, List.getElem?_set, if_pos rfl, if_pos hidxlt]
        simp
      · rw [if_neg ?_]
        · unfold setCell
          split
          · rw [List.getD_eq_getElem?_getD, List.getElem?_set, if_neg ?_,
              ← List.getD_eq_getElem?_getD]
            intro hidx
            have := idx_inj w (base.1 + c.1) (base.2 + c.2) x y hc.1 hc.2.1 hc.2.2.1
              h0x hx h0y hidx
            exact hhit ⟨this.1.symm, this.2.symm⟩
          · rfl
        · rintro ⟨c2, hm, he⟩
          rcases List.mem_cons.mp hm with h2 | h2
          · subst h2; exact hhit he
          · exact hrest ⟨c2, h2, he⟩

/-- The effect of `add_at_position` on `get`. -/
theorem get_addAtPosition (b : Board) (p : Poly) (base : Int × Int) (hwf : WF b)
    (hin : ∀ c ∈ p, b.get (base.1 + c.1) (base.2 + c.2) = some none) (x y : Int) :
    (b.addAtPosition p base).get x y =
      (if ∃ c ∈ p, x = base.1 + c.1 ∧ y = base.2 + c.2
        then some (some b.polyominos.length) else b.get x y) := by
  have hbnds : ∀ c ∈ p, 0 ≤ base.1 + c.1 ∧ base.1 + c.1 < (b.width : Int) ∧
      0 ≤ base.2 + c.2 ∧ base.2 + c.2 < (b.height : Int) := by
    intro c hc
    obtain ⟨h1, h2, h3, h4, _⟩ := get_some_noneB b _ _ (hin c hc)
    exact ⟨h1, h3, h2, h4⟩
  unfold Board.get Board.addAtPosition Board.isInBounds
  simp only
  by_cases hxy : ¬(x < 0 ∨ y < 0 ∨ x ≥ (b.width : Int) ∨ y ≥ (b.height : Int))
  · rw [if_pos hxy, if_pos hxy]
    rw [foldSet_getD b.width b.height base b.polyominos.length p b.cells hwf hbnds
      x y (by omega) (by omega) (by omega) (by omega)]
    split
    · rfl
    · rfl
  · have hno : ¬∃ c ∈ p, x = base.1 + c.1 ∧ y = base.2 + c.2 := by
      rintro ⟨c, hc, he⟩
      have := hbnds c hc
      rw [he.1, he.2] at hxy
      exact hxy (by omega)
    rw [if_neg hxy, if_neg hxy, if_neg hno]

/-- **C9 invariant**: along every reachable board, the cell vector stays
well-formed, every occupied cell stores an index below the length of the
placement sequence, and the cells holding index `i` are exactly the cells of
the `i`-th placed shape translated by its anchor. -/
theorem reach_invariant (w h : Nat) (b : Board) (hr : Reach w h b) :
    WF b ∧ b.width = w ∧ b.height = h ∧
      (∀ x y i, b.get x y = some (some i) → i < b.polyominos.length) ∧
      (∀ i, i < b.polyominos.length → ∃ base : Int × Int, ∀ x y : Int,
        (b.get x y = some (some i) ↔
          ∃ c ∈ b.polyominos.getD i [], x = base.1 + c.1 ∧ y = base.2 + c.2)) := by
  induction hr with
  | init =>
    refine ⟨by simp [WF, Board.new], rfl, rfl, ?_, ?_⟩
    · intro x y i hget
      exfalso
      unfold Board.get at hget
      split at hget
      · simp only [Option.some.injEq] at hget
        rw [List.getD_eq_getElem?_getD] at hget
        rcases hg : (Board.new w h).cells[x.toNat + y.toNat * (Board.new w h).width]? with
          _ | v
        · rw [hg] at hget; simp at hget
        · rw [hg] at hget
          have := List.getElem?_mem hg
          simp only [Board.new, List.mem_replicate] at this
          rw [this.2] at hget
          simp at hget
      · cases hget
    · intro i hi
      simp [Board.new] at hi
  | step b b2 p hr2 hcl ih =>
    obtain ⟨hwf, hbw, hbh, hidx, hchar⟩ := ih
    obtain ⟨base, hfind, hb2, hall⟩ := addClone_spec b p b2 hcl
    subst hb2
    have hget2 := get_addAtPosition b p base hwf hall
    refine ⟨?_, hbw, hbh, ?_, ?_⟩
    · unfold WF Board.addAtPosition
      simp only
      rw [M.foldSet_length]
      exact hwf
    · intro x y i hget
      rw [hget2 x y] at hget
      split at hget
      · simp only [Option.some.injEq] at hget
        subst hget
        simp [Board.addAtPosition]
      · have := hidx x y i hget
        simp only [Board.addAtPosition, List.length_append, List.length_cons,
          List.length_nil]
        omega
    · intro i hi
      simp only [Board.addAtPosition, List.length_append, List.length_cons,
        List.length_nil] at hi
      by_cases hlast : i = b.polyominos.length
      · subst hlast
        refine ⟨base, ?_⟩
        intro x y
        rw [hget2 x y]
        have hpget : (b.addAtPosition p base).polyominos.getD b.polyominos.length [] = p := by
          simp [Board.addAtPosition, List.getD_eq_getElem?_getD]
        rw [show (Board.addAtPosition b p base).polyominos.getD b.polyominos.length [] = p
          from hpget]
        constructor
        · intro hg
          split at hg
          · next hhit => exact hhit
          · exfalso
            have := hidx x y b.polyominos.length hg
            omega
        · intro hhit
          rw [if_pos hhit]
      · have hilt : i < b.polyominos.length := by omega
        obtain ⟨base0, hbase0⟩ := hchar i hilt
        refine ⟨base0, ?_⟩
        intro x y
        have hpget : (b.addAtPosition p base).polyominos.getD i [] =
            b.polyominos.getD i [] := by
          simp only [Board.addAtPosition]
          rw [List.getD_eq_getElem?_getD, List.getD_eq_getElem?_getD,
            List.getElem?_append_left hilt]
        rw [hget2 x y, hpget]
        constructor
        · intro hg
          split at hg
          · simp only [Option.some.injEq] at hg
            exact absurd hg.symm hlast
          · exact (hbase0 x y).mp hg
        · intro hhit
          have hg := (hbase0 x y).mpr hhit
          split
          · next hhit2 =>
            exfalso
            obtain ⟨c, hc, he⟩ := hhit2
            have := hall c hc
            rw [← he.1, ← he.2] at this
            rw [this] at hg
            cases hg
          · exact hg

end BR

/-! ### The total orders on coordinates, shapes and solutions -/

theorem coordCmp_lt_iff (a b : Coord) :
    coordCmp a b = Ordering.lt ↔ (a.1 < b.1 ∨ (a.1 = b.1 ∧ a.2 < b.2)) := by
  unfold coordCmp
  by_cases h : compare a.1 b.1 = Ordering.eq
  · simp only [if_pos h]
    rw [compare_eq_iff_eq] at h
    rw [compare_lt_iff_lt]
    constructor
    · intro h2
      exact Or.inr ⟨h, h2⟩
    · rintro (h2 | ⟨_, h2⟩)
      · omega
      · exact h2
  · simp only [if_neg h]
    constructor
    · intro h2
      exact Or.inl (compare_lt_iff_lt.mp h2)
    · rintro (h2 | ⟨he, _⟩)
      · exact compare_lt_iff_lt.mpr h2
      · exact absurd (compare_eq_iff_eq.mpr he) h

theorem coordCmp_eq_iff (a b : Coord) : coordCmp a b = Ordering.eq ↔ a = b := by
  unfold coordCmp
  by_cases h : compare a.1 b.1 = Ordering.eq
  · simp only [if_pos h]
    rw [compare_eq_iff_eq] at h
    rw [compare_eq_iff_eq, Prod.ext_iff]
    constructor
    · intro h2
      exact ⟨h, h2⟩
    · intro h2
      exact h2.2
  · simp only [if_neg h]
    constructor
    · intro h2
      exact absurd h2 h
    · intro h2
      subst h2
      exact absurd (compare_eq_iff_eq.mpr rfl) h

theorem coordCmp_gt_iff (a b : Coord) :
    coordCmp a b = Ordering.gt ↔ (b.1 < a.1 ∨ (a.1 = b.1 ∧ b.2 < a.2)) := by
  unfold coordCmp
  by_cases h : compare a.1 b.1 = Ordering.eq
  · simp only [if_pos h]
    rw [compare_eq_iff_eq] at h
    rw [compare_gt_iff_gt]
    constructor
    · intro h2
      exact Or.inr ⟨h, h2⟩
    · rintro (h2 | ⟨_, h2⟩)
      · omega
      · exact h2
  · simp only [if_neg h]
    constructor
    · intro h2
      exact Or.inl (compare_gt_iff_gt.mp h2)
    · rintro (h2 | ⟨he, _⟩)
      · exact compare_gt_iff_gt.mpr h2
      · exact absurd (compare_eq_iff_eq.mpr he) h

theorem sliceCmp_eq_iff : ∀ a b : List Coord, sliceCmp a b = Ordering.eq ↔ a = b := by
  intro a
  induction a with
  | nil =>
    intro b
    cases b with
    | nil => simp [sliceCmp]
    | cons y ys => simp [sliceCmp]
  | cons x xs ih =>
    intro b
    cases b with
    | nil => simp [sliceCmp]
    | cons y ys =>
      unfold sliceCmp
      rcases h : coordCmp x y with _ | _ | _
      · simp only []
        rw [coordCmp_lt_iff] at h
        constructor
        · intro h2
          cases h2
        · intro h2
          injection h2 with h3 _
          subst h3
          omega
      · simp only []
        rw [coordCmp_eq_iff] at h
        subst h
        rw [ih]
        constructor
        · intro h2
          rw [h2]
        · intro h2
          injection h2
      · simp only []
        rw [coordCmp_gt_iff] at h
        constructor
        · intro h2
          cases h2
        · intro h2
          injection h2 with h3 _
          subst h3
          omega

theorem sliceCmp_swap : ∀ a b : List Coord,
    sliceCmp a b = Ordering.lt ↔ sliceCmp b a = Ordering.gt := by
  intro a
  induction a with
  | nil =>
    intro b
    cases b with
    | nil => simp [sliceCmp]
    | cons y ys => simp [sliceCmp]
  | cons x xs ih =>
    intro b
    cases b with
    | nil => simp [sliceCmp]
    | cons y ys =>
      unfold sliceCmp
      rcases h : coordCmp x y with _ | _ | _
      · have h2 : coordCmp y x = Ordering.gt := by
          rw [coordCmp_gt_iff]
          rw [coordCmp_lt_iff] at h
          omega
        simp [h2]
      · have h2 : coordCmp y x = Ordering.eq := by
          rw [coordCmp_eq_iff] at h ⊢
          exact h.symm
        simp only [h2]
        exact ih ys
      · have h2 : coordCmp y x = Ordering.lt := by
          rw [coordCmp_lt_iff]
          rw [coordCmp_gt_iff] at h
          omega
        simp [h2]

theorem coordCmp_trans (a b c : Coord) (h1 : coordCmp a b = Ordering.lt)
    (h2 : coordCmp b c = Ordering.lt) : coordCmp a c = Ordering.lt := by
  rw [coordCmp_lt_iff] at h1 h2 ⊢
  omega

theorem sliceCmp_trans : ∀ a b c : List Coord, sliceCmp a b = Ordering.lt →
    sliceCmp b c = Ordering.lt → sliceCmp a c = Ordering.lt := by
  intro a
  induction a with
  | nil =>
    intro b c h1 h2
    cases b with
    | nil =>
      cases c with
      | nil => exact h2
      | cons z zs => simp [sliceCmp]
    | cons y ys =>
      cases c with
      | nil => simp [sliceCmp] at h2
      | cons z zs => simp [sliceCmp]
  | cons x xs ih =>
    intro b c h1 h2
    cases b with
    | nil => simp [sliceCmp] at h1
    | cons y ys =>
      cases c with
      | nil => simp [sliceCmp] at h2
      | cons z zs =>
        unfold sliceCmp at h1 h2 ⊢
        rcases hxy : coordCmp x y with _ | _ | _ <;> rw [hxy] at h1
        · rcases hyz : coordCmp y z with _ | _ | _ <;> rw [hyz] at h2
          · rw [coordCmp_trans x y z hxy hyz]
          · rw [coordCmp_eq_iff] at hyz
            subst hyz
            rw [hxy]
          · simp at h2
        · rw [coordCmp_eq_iff] at hxy
          subst hxy
          rcases hyz : coordCmp x z with _ | _ | _
          · rfl
          · rw [hyz] at h2
            exact ih ys zs h1 h2
          · rw [hyz] at h2
            simp at h2
        · simp at h1

theorem lexPolys_eq_iff : ∀ a b : List Poly, a.length = b.length →
    (BR.lexPolys a b = Ordering.eq ↔ a = b) := by
  intro a
  induction a with
  | nil =>
    intro b hl
    cases b with
    | nil => simp [BR.lexPolys]
    | cons y ys => simp at hl
  | cons x xs ih =>
    intro b hl
    cases b with
    | nil => simp at hl
    | cons y ys =>
      unfold BR.lexPolys
      rcases h : sliceCmp x y with _ | _ | _
      · constructor
        · intro h2
          exact Ordering.noConfusion h2
        · intro h2
          injection h2 with hh _
          subst hh
          have he : sliceCmp x x = Ordering.eq := (sliceCmp_eq_iff x x).mpr rfl
          rw [he] at h
          cases h
      · rw [sliceCmp_eq_iff] at h
        subst h
        have hih := ih ys (by simpa using hl)
        constructor
        · intro h2
          rw [hih.mp h2]
        · intro h2
          injection h2 with _ ht
          exact hih.mpr ht
      · constructor
        · intro h2
          exact Ordering.noConfusion h2
        · intro h2
          injection h2 with hh _
          subst hh
          have he : sliceCmp x x = Ordering.eq := (sliceCmp_eq_iff x x).mpr rfl
          rw [he] at h
          cases h

theorem lexPolys_swap : ∀ a b : List Poly, a.length = b.length →
    (BR.lexPolys a b = Ordering.lt ↔ BR.lexPolys b a = Ordering.gt) := by
  intro a
  induction a with
  | nil =>
    intro b hl
    cases b with
    | nil => simp [BR.lexPolys]
    | cons y ys => simp at hl
  | cons x xs ih =>
    intro b hl
    cases b with
    | nil => simp at hl
    | cons y ys =>
      unfold BR.lexPolys
      rcases h : sliceCmp x y with _ | _ | _
      · have h2 : sliceCmp y x = Ordering.gt := (sliceCmp_swap x y).mp h
        rw [h2]
        exact ⟨fun _ => rfl, fun _ => rfl⟩
      · rw [sliceCmp_eq_iff] at h
        subst h
        have he : sliceCmp x x = Ordering.eq := (sliceCmp_eq_iff x x).mpr rfl
        rw [he]
        exact ih ys (by simpa using hl)
      · have h2 : sliceCmp y x = Ordering.lt := (sliceCmp_swap y x).mpr h
        rw [h2]
        constructor
        · intro h3
          exact Ordering.noConfusion h3
        · intro h3
          exact Ordering.noConfusion h3

theorem lexPolys_trans : ∀ a b c : List Poly, a.length = b.length → b.length = c.length →
    BR.lexPolys a b = Ordering.lt → BR.lexPolys b c = Ordering.lt →
    BR.lexPolys a c = Ordering.lt := by
  intro a
  induction a with
  | nil =>
    intro b c hab _ h1 _
    cases b with
    | nil => exact absurd h1 (by decide)
    | cons y ys => simp at hab
  | cons x xs ih =>
    intro b c hab hbc h1 h2
    cases b with
    | nil => simp at hab
    | cons y ys =>
      cases c with
      | nil => simp at hbc
      | cons z zs =>
        unfold BR.lexPolys at h1 h2 ⊢
        rcases hxy : sliceCmp x y with _ | _ | _ <;> rw [hxy] at h1
        · rcases hyz : sliceCmp y z with _ | _ | _ <;> rw [hyz] at h2
          · rw [sliceCmp_trans x y z hxy hyz]
          · rw [sliceCmp_eq_iff] at hyz
            subst hyz
            rw [hxy]
          · simp at h2
        · rw [sliceCmp_eq_iff] at hxy
          subst hxy
          rcases hyz : sliceCmp x z with _ | _ | _
          · rfl
          · rw [hyz] at h2
            exact ih ys zs (by simpa using hab) (by simpa using hbc) h1 h2
          · rw [hyz] at h2
            simp at h2
        · simp at h1

theorem solCmp_eq_iff (a b : List Poly) : BR.solCmp a b = Ordering.eq ↔ a = b := by
  unfold BR.solCmp
  by_cases h1 : a.length > b.length
  · rw [if_pos h1]
    constructor
    · intro h
      exact absurd h (by decide)
    · intro h
      subst h
      exact absurd h1 (by omega)
  · rw [if_neg h1]
    by_cases h2 : a.length < b.length
    · rw [if_pos h2]
      constructor
      · intro h
        exact absurd h (by decide)
      · intro h
        subst h
        exact absurd h2 (by omega)
    · rw [if_neg h2]
      exact lexPolys_eq_iff a b (by omega)

theorem solCmp_swap (a b : List Poly) :
    BR.solCmp a b = Ordering.lt ↔ BR.solCmp b a = Ordering.gt := by
  unfold BR.solCmp
  by_cases h1 : a.length > b.length
  · rw [if_pos h1, if_neg (by omega), if_pos (by omega)]
    constructor
    · intro h
      exact absurd h (by decide)
    · intro h
      exact absurd h (by decide)
  · rw [if_neg h1]
    by_cases h2 : a.length < b.length
    · rw [if_pos h2, if_pos (by omega)]
      exact ⟨fun _ => rfl, fun _ => rfl⟩
    · rw [if_neg h2, if_neg (by omega), if_neg (by omega)]
      exact lexPolys_swap a b (by omega)

theorem solCmp_trans (a b c : List Poly) (h1 : BR.solCmp a b = Ordering.lt)
    (h2 : BR.solCmp b c = Ordering.lt) : BR.solCmp a c = Ordering.lt := by
  unfold BR.solCmp at h1 h2 ⊢
  by_cases hab : a.length > b.length
  · rw [if_pos hab] at h1
    exact absurd h1 (by decide)
  rw [if_neg hab] at h1
  by_cases hbc : b.length > c.length
  · rw [if_pos hbc] at h2
    exact absurd h2 (by decide)
  rw [if_neg hbc] at h2
  by_cases hab2 : a.length < b.length
  · rw [if_neg (by omega), if_pos (by omega)]
  · rw [if_neg hab2] at h1
    by_cases hbc2 : b.length < c.length
    · rw [if_neg (by omega), if_pos (by omega)]
    · rw [if_neg hbc2] at h2
      rw [if_neg (by omega), if_neg (by omega)]
      exact lexPolys_trans a b c (by omega) (by omega) h1 h2

theorem solLe_refl (a : List Poly) : solLe a a := by
  unfold solLe
  rw [(solCmp_eq_iff a a).mpr rfl]
  decide

theorem solLe_trans (a b c : List Poly) (h1 : solLe a b) (h2 : solLe b c) : solLe a c := by
  unfold solLe at h1 h2 ⊢
  rcases hab : BR.solCmp a b with _ | _ | _
  · rcases hbc : BR.solCmp b c with _ | _ | _
    · rw [solCmp_trans a b c hab hbc]
      decide
    · rw [(solCmp_eq_iff b c).mp hbc] at hab
      rw [hab]
      decide
    · exact absurd hbc h2
  · rw [(solCmp_eq_iff a b).mp hab]
    exact h2
  · exact absurd hab h1

theorem solLe_antisymm (a b : List Poly) (h1 : solLe a b) (h2 : solLe b a) : a = b := by
  unfold solLe at h1 h2
  rcases hab : BR.solCmp a b with _ | _ | _
  · exact absurd ((solCmp_swap a b).mp hab) h2
  · exact (solCmp_eq_iff a b).mp hab
  · exact absurd hab h1

theorem solLtB_iff (a b : List Poly) : BR.solLtB a b = true ↔ BR.solCmp a b = Ordering.lt := by
  unfold BR.solLtB
  exact decide_eq_true_iff

theorem solLt_le (a b : List Poly) (h : BR.solLtB a b = true) : solLe a b := by
  unfold solLe
  rw [(solLtB_iff a b).mp h]
  decide

theorem not_solLt_ge (a b : List Poly) (h : ¬ BR.solLtB a b = true) : solLe b a := by
  unfold solLe
  intro hgt
  exact h ((solLtB_iff a b).mpr ((solCmp_swap a b).mpr hgt))

/-- The running-minimum fold of `cannonical_form` returns an element that is
below every candidate. -/
theorem selectMinSol_fold : ∀ (rest : List (List Poly)) (s0 : List Poly),
    ((rest.foldl (fun best cur => if BR.solLtB cur best then cur else best) s0) = s0 ∨
      (rest.foldl (fun best cur => if BR.solLtB cur best then cur else best) s0) ∈ rest) ∧
    solLe (rest.foldl (fun best cur => if BR.solLtB cur best then cur else best) s0) s0 ∧
    ∀ x ∈ rest, solLe (rest.foldl (fun best cur => if BR.solLtB cur best then cur else best) s0) x := by
  intro rest
  induction rest with
  | nil =>
    intro s0
    exact ⟨Or.inl rfl, solLe_refl s0, by simp⟩
  | cons cur rest2 ih =>
    intro s0
    rw [List.foldl_cons]
    by_cases hc : BR.solLtB cur s0 = true
    · rw [if_pos hc]
      obtain ⟨hmem, hle, hall⟩ := ih cur
      refine ⟨?_, ?_, ?_⟩
      · rcases hmem with hm | hm
        · exact Or.inr (by rw [hm]; exact List.mem_cons_self cur rest2)
        · exact Or.inr (List.mem_cons_of_mem cur hm)
      · exact solLe_trans _ _ _ hle (solLt_le cur s0 hc)
      · intro x hx
        rcases List.mem_cons.mp hx with hx2 | hx2
        · subst hx2
          exact hle
        · exact hall x hx2
    · rw [if_neg hc]
      obtain ⟨hmem, hle, hall⟩ := ih s0
      refine ⟨?_, hle, ?_⟩
      · rcases hmem with hm | hm
        · exact Or.inl hm
        · exact Or.inr (List.mem_cons_of_mem cur hm)
      · intro x hx
        rcases List.mem_cons.mp hx with hx2 | hx2
        · subst hx2
          exact solLe_trans _ _ _ hle (not_solLt_ge x s0 hc)
        · exact hall x hx2

theorem selectMinSol_spec (l : List (List Poly)) (m : List Poly)
    (h : BR.selectMinSol l = some m) : m ∈ l ∧ ∀ x ∈ l, solLe m x := by
  cases l with
  | nil => cases h
  | cons s rest =>
    unfold BR.selectMinSol at h
    injection h with h
    obtain ⟨hmem, hle, hall⟩ := selectMinSol_fold rest s
    rw [h] at hmem hle hall
    refine ⟨?_, ?_⟩
    · rcases hmem with hm | hm
      · rw [← hm]
        exact List.mem_cons_self m rest
      · exact List.mem_cons_of_mem s hm
    · intro x hx
      rcases List.mem_cons.mp hx with hx2 | hx2
      · subst hx2
        exact hle
      · exact hall x hx2

theorem selectMinSol_unique (l : List (List Poly)) (m : List Poly)
    (hm : m ∈ l) (hle : ∀ x ∈ l, solLe m x) : BR.selectMinSol l = some m := by
  cases l with
  | nil => cases hm
  | cons s rest =>
    have hspec := selectMinSol_spec (s :: rest)
      (rest.foldl (fun best cur => if BR.solLtB cur best then cur else best) s) rfl
    obtain ⟨hm0, hall0⟩ := hspec
    have he : rest.foldl (fun best cur => if BR.solLtB cur best then cur else best) s = m :=
      solLe_antisymm _ _ (hall0 m hm) (hle _ hm0)
    unfold BR.selectMinSol
    exact congrArg some he

theorem selectMinSol_perm (l l2 : List (List Poly)) (hp : l.Perm l2) :
    BR.selectMinSol l = BR.selectMinSol l2 := by
  cases hl : BR.selectMinSol l with
  | none =>
    cases l with
    | nil =>
      have : l2 = [] := List.Perm.eq_nil hp.symm
      rw [this]
      rfl
    | cons s rest => cases hl
  | some m =>
    obtain ⟨hm, hall⟩ := selectMinSol_spec l m hl
    rw [selectMinSol_unique l2 m (hp.mem_iff.mp hm)
      (fun x hx => hall x (hp.mem_iff.mpr hx))]

/-! ### Option-valued `mapM` -/

theorem optMapM_nil {α β : Type} (f : α → Option β) : ([] : List α).mapM f = some [] := rfl

theorem optMapM_cons {α β : Type} (f : α → Option β) (a : α) (l : List α) :
    (a :: l).mapM f = (f a).bind (fun b => (l.mapM f).map (fun bs => b :: bs)) := by
  rw [List.mapM_cons]
  cases f a <;> cases l.mapM f <;> simp

theorem optMapM_length {α β : Type} (f : α → Option β) :
    ∀ (l : List α) (L : List β), l.mapM f = some L → L.length = l.length := by
  intro l
  induction l with
  | nil =>
    intro L h
    rw [optMapM_nil] at h
    injection h with h
    subst h
    rfl
  | cons a l2 ih =>
    intro L h
    rw [optMapM_cons] at h
    cases hfa : f a with
    | none =>
      rw [hfa] at h
      simp at h
    | some b =>
      rw [hfa] at h
      simp only [Option.some_bind] at h
      cases hl2 : l2.mapM f with
      | none =>
        rw [hl2] at h
        simp at h
      | some bs =>
        rw [hl2] at h
        simp only [Option.map_some'] at h
        injection h with h
        subst h
        simp [ih bs hl2]

theorem optMapM_get? {α β : Type} (f : α → Option β) :
    ∀ (l : List α) (L : List β), l.mapM f = some L →
      ∀ k, L.get? k = (l.get? k).bind f := by
  intro l
  induction l with
  | nil =>
    intro L h k
    rw [optMapM_nil] at h
    injection h with h
    subst h
    simp
  | cons a l2 ih =>
    intro L h k
    rw [optMapM_cons] at h
    cases hfa : f a with
    | none =>
      rw [hfa] at h
      simp at h
    | some b =>
      rw [hfa] at h
      simp only [Option.some_bind] at h
      cases hl2 : l2.mapM f with
      | none =>
        rw [hl2] at h
        simp at h
      | some bs =>
        rw [hl2] at h
        simp only [Option.map_some'] at h
        injection h with h
        subst h
        cases k with
        | zero => simpa using hfa.symm
        | succ k2 => simpa using ih bs hl2 k2

theorem optMapM_mem_exists {α β : Type} (f : α → Option β) :
    ∀ (l : List α) (L : List β), l.mapM f = some L →
      ∀ bb ∈ L, ∃ a ∈ l, f a = some bb := by
  intro l
  induction l with
  | nil =>
    intro L h bb hbb
    rw [optMapM_nil] at h
    injection h with h
    subst h
    cases hbb
  | cons a l2 ih =>
    intro L h bb hbb
    rw [optMapM_cons] at h
    cases hfa : f a with
    | none =>
      rw [hfa] at h
      simp at h
    | some b =>
      rw [hfa] at h
      simp only [Option.some_bind] at h
      cases hl2 : l2.mapM f with
      | none =>
        rw [hl2] at h
        simp at h
      | some bs =>
        rw [hl2] at h
        simp only [Option.map_some'] at h
        injection h with h
        subst h
        rcases List.mem_cons.mp hbb with h2 | h2
        · subst h2
          exact ⟨a, List.mem_cons_self a l2, hfa⟩
        · obtain ⟨a2, ha2, hfa2⟩ := ih bs hl2 bb h2
          exact ⟨a2, List.mem_cons_of_mem a ha2, hfa2⟩

theorem optMapM_forall_mem {α β : Type} (f : α → Option β) :
    ∀ (l : List α) (L : List β), l.mapM f = some L →
      ∀ a ∈ l, ∃ bb ∈ L, f a = some bb := by
  intro l
  induction l with
  | nil =>
    intro L h a ha
    cases ha
  | cons a0 l2 ih =>
    intro L h a ha
    rw [optMapM_cons] at h
    cases hfa : f a0 with
    | none =>
      rw [hfa] at h
      simp at h
    | some b =>
      rw [hfa] at h
      simp only [Option.some_bind] at h
      cases hl2 : l2.mapM f with
      | none =>
        rw [hl2] at h
        simp at h
      | some bs =>
        rw [hl2] at h
        simp only [Option.map_some'] at h
        injection h with h
        subst h
        rcases List.mem_cons.mp ha with h2 | h2
        · subst h2
          exact ⟨b, List.mem_cons_self b bs, hfa⟩
        · obtain ⟨bb, hbb, hfa2⟩ := ih bs hl2 a h2
          exact ⟨bb, List.mem_cons_of_mem b hbb, hfa2⟩

theorem optMapM_isSome {α β : Type} (f : α → Option β) :
    ∀ l : List α, (∀ a ∈ l, (f a).isSome = true) → ∃ L, l.mapM f = some L := by
  intro l
  induction l with
  | nil =>
    intro _
    exact ⟨[], optMapM_nil f⟩
  | cons a l2 ih =>
    intro hall
    obtain ⟨L2, hL2⟩ := ih (fun a2 ha2 => hall a2 (List.mem_cons_of_mem a ha2))
    have hfa := hall a (List.mem_cons_self a l2)
    cases hfa2 : f a with
    | none =>
      rw [hfa2] at hfa
      cases hfa
    | some b =>
      refine ⟨b :: L2, ?_⟩
      rw [optMapM_cons, hfa2, hL2]
      rfl

theorem optMapM_congr {α β : Type} (f g : α → Option β) :
    ∀ l : List α, (∀ a ∈ l, f a = g a) → l.mapM f = l.mapM g := by
  intro l
  induction l with
  | nil =>
    intro _
    rw [optMapM_nil, optMapM_nil]
  | cons a l2 ih =>
    intro hall
    rw [optMapM_cons, optMapM_cons, hall a (List.mem_cons_self a l2),
      ih (fun a2 ha2 => hall a2 (List.mem_cons_of_mem a ha2))]

theorem optMapM_map {α β γ : Type} (f : β → Option γ) (g : α → β) :
    ∀ l : List α, (l.map g).mapM f = l.mapM (fun a => f (g a)) := by
  intro l
  induction l with
  | nil =>
    rw [List.map_nil, optMapM_nil, optMapM_nil]
  | cons a l2 ih =>
    rw [List.map_cons, optMapM_cons, optMapM_cons, ih]

theorem optMapM_some {α β : Type} (g : α → β) :
    ∀ l : List α, l.mapM (fun a => some (g a)) = some (l.map g) := by
  intro l
  induction l with
  | nil =>
    rw [optMapM_nil, List.map_nil]
  | cons a l2 ih =>
    rw [optMapM_cons, ih, List.map_cons]
    rfl

/-! ### First-seen deduplication -/

theorem firstSeenAux_mem : ∀ (l acc : List Nat) (x : Nat),
    (x ∈ l.foldl (fun acc i => if i ∈ acc then acc else acc ++ [i]) acc) ↔
      (x ∈ acc ∨ x ∈ l) := by
  intro l
  induction l with
  | nil =>
    intro acc x
    simp
  | cons i l2 ih =>
    intro acc x
    rw [List.foldl_cons]
    by_cases hi : i ∈ acc
    · rw [if_pos hi, ih]
      constructor
      · rintro (h | h)
        · exact Or.inl h
        · exact Or.inr (List.mem_cons_of_mem i h)
      · rintro (h | h)
        · exact Or.inl h
        · rcases List.mem_cons.mp h with h2 | h2
          · subst h2
            exact Or.inl hi
          · exact Or.inr h2
    · rw [if_neg hi, ih]
      constructor
      · rintro (h | h)
        · rcases List.mem_append.mp h with h2 | h2
          · exact Or.inl h2
          · simp only [List.mem_singleton] at h2
            subst h2
            exact Or.inr (List.mem_cons_self x l2)
        · exact Or.inr (List.mem_cons_of_mem i h)
      · rintro (h | h)
        · exact Or.inl (List.mem_append.mpr (Or.inl h))
        · rcases List.mem_cons.mp h with h2 | h2
          · subst h2
            exact Or.inl (List.mem_append.mpr (Or.inr (List.mem_singleton.mpr rfl)))
          · exact Or.inr h2

theorem mem_firstSeen (l : List Nat) (x : Nat) : x ∈ BR.firstSeen l ↔ x ∈ l := by
  unfold BR.firstSeen
  rw [firstSeenAux_mem]
  simp

theorem firstSeenAux_map (f : Nat → Nat) (L : List Nat)
    (hinj : ∀ a ∈ L, ∀ b ∈ L, f a = f b → a = b) :
    ∀ (l acc : List Nat), (∀ x ∈ l, x ∈ L) → (∀ x ∈ acc, x ∈ L) →
      (l.map f).foldl (fun acc i => if i ∈ acc then acc else acc ++ [i]) (acc.map f) =
        (l.foldl (fun acc i => if i ∈ acc then acc else acc ++ [i]) acc).map f := by
  intro l
  induction l with
  | nil =>
    intro acc _ _
    simp
  | cons i l2 ih =>
    intro acc hl hacc
    rw [List.map_cons, List.foldl_cons, List.foldl_cons]
    have hiL : i ∈ L := hl i (List.mem_cons_self i l2)
    by_cases hi : i ∈ acc
    · rw [if_pos (List.mem_map_of_mem f hi), if_pos hi]
      exact ih acc (fun x hx => hl x (List.mem_cons_of_mem i hx)) hacc
    · have hfm : f i ∉ acc.map f := by
        intro hmem
        obtain ⟨a, ha, hfa⟩ := List.mem_map.mp hmem
        have hai : a = i := hinj a (hacc a ha) i hiL hfa
        rw [hai] at ha
        exact hi ha
      rw [if_neg hfm, if_neg hi]
      have hstep : acc.map f ++ [f i] = (acc ++ [i]).map f := by simp
      rw [hstep]
      refine ih (acc ++ [i]) (fun x hx => hl x (List.mem_cons_of_mem i hx)) ?_
      intro x hx
      rcases List.mem_append.mp hx with h2 | h2
      · exact hacc x h2
      · simp only [List.mem_singleton] at h2
        subst h2
        exact hiL

theorem firstSeen_map (f : Nat → Nat) (L l : List Nat)
    (hinj : ∀ a ∈ L, ∀ b ∈ L, f a = f b → a = b) (hl : ∀ x ∈ l, x ∈ L) :
    BR.firstSeen (l.map f) = (BR.firstSeen l).map f := by
  unfold BR.firstSeen
  have h := firstSeenAux_map f L hinj l [] hl (by simp)
  simpa using h

/-! ### Row-major grid indexing -/

theorem gridPositions_succ (w h : Nat) :
    gridPositions w (h + 1) =
      gridPositions w h ++ (List.range w).map (fun x => (Int.ofNat x, Int.ofNat h)) := by
  unfold gridPositions
  rw [List.range_succ, List.flatMap_append]
  simp

theorem gridPositions_length (w : Nat) : ∀ h, (gridPositions w h).length = w * h := by
  intro h
  induction h with
  | zero => rfl
  | succ h2 ih =>
    rw [gridPositions_succ, List.length_append, ih, List.length_map, List.length_range]
    ring

theorem gridPositions_get? (w : Nat) : ∀ (h i : Nat), i < w * h →
    (gridPositions w h).get? i = some (Int.ofNat (i % w), Int.ofNat (i / w)) := by
  intro h
  induction h with
  | zero =>
    intro i hi
    omega
  | succ h2 ih =>
    intro i hi
    rw [gridPositions_succ, List.get?_eq_getElem?]
    by_cases hlt : i < w * h2
    · rw [List.getElem?_append_left (by rw [gridPositions_length]; exact hlt)]
      rw [← List.get?_eq_getElem?]
      exact ih i hlt
    · have hw : 0 < w := by
        rcases Nat.eq_zero_or_pos w with h0 | h0
        · rw [h0] at hi
          simp at hi
        · exact h0
      have hle : w * h2 ≤ i := by omega
      have hr : i - w * h2 < w := by
        rw [Nat.mul_succ] at hi
        omega
      rw [List.getElem?_append_right (by rw [gridPositions_length]; omega)]
      rw [gridPositions_length]
      rw [List.getElem?_map, List.getElem?_range hr]
      simp only [Option.map_some']
      have hk : i = i - w * h2 + h2 * w := by
        rw [Nat.mul_comm h2 w]
        omega
      have h1 : i % w = i - w * h2 := by
        conv_lhs => rw [hk]
        rw [Nat.add_mul_mod_self_right]
        exact Nat.mod_eq_of_lt hr
      have h2d : i / w = h2 := by
        conv_lhs => rw [hk]
        rw [Nat.add_mul_div_right _ _ hw]
        rw [Nat.div_eq_of_lt hr]
        omega
      rw [h1, h2d]

/-! ### The board coordinate maps of the eight symmetries -/

theorem symCoord_eq (w h : Nat) (sh sv sd : Bool) (x y : Int) :
    BR.symCoord w h ⟨sh, sv, sd⟩ (x, y) =
      ((if sh then (w : Int) - 1 - (if sd then y else x) else (if sd then y else x)),
        (if sv then (h : Int) - 1 - (if sd then x else y) else (if sd then x else y))) := by
  cases sd <;> rfl

theorem symCoord_comp_sq (w h : Nat) (hw : w = h) (σ τ : Symmetry) (c : Int × Int) :
    BR.symCoord w h σ (BR.symCoord w h τ c) = BR.symCoord w h (BR.compSym σ τ) c := by
  obtain ⟨sh, sv, sd⟩ := σ
  obtain ⟨th, tv, td⟩ := τ
  obtain ⟨x, y⟩ := c
  simp only [BR.compSym]
  rw [symCoord_eq, symCoord_eq, symCoord_eq]
  cases sh <;> cases sv <;> cases sd <;> cases th <;> cases tv <;> cases td <;>
    simp <;> omega

theorem symCoord_comp_nd (w h : Nat) (σ τ : Symmetry) (hsd : σ.diagonal = false)
    (htd : τ.diagonal = false) (c : Int × Int) :
    BR.symCoord w h σ (BR.symCoord w h τ c) = BR.symCoord w h (BR.compSym σ τ) c := by
  obtain ⟨sh, sv, sd⟩ := σ
  obtain ⟨th, tv, td⟩ := τ
  obtain ⟨x, y⟩ := c
  simp only at hsd htd
  subst hsd
  subst htd
  simp only [BR.compSym]
  rw [symCoord_eq, symCoord_eq, symCoord_eq]
  cases sh <;> cases sv <;> cases th <;> cases tv <;> simp

theorem symCoord_comp (w h : Nat) (σ τ : Symmetry)
    (hσ : σ.diagonal = true → w = h) (hτ : τ.diagonal = true → w = h) (c : Int × Int) :
    BR.symCoord w h σ (BR.symCoord w h τ c) = BR.symCoord w h (BR.compSym σ τ) c := by
  cases hsd : σ.diagonal
  · cases htd : τ.diagonal
    · exact symCoord_comp_nd w h σ τ hsd htd c
    · exact symCoord_comp_sq w h (hτ htd) σ τ c
  · exact symCoord_comp_sq w h (hσ hsd) σ τ c

theorem symCoord_inv (w h : Nat) (σ : Symmetry) (hd : σ.diagonal = true → w = h)
    (c : Int × Int) : BR.symCoord w h σ (BR.symCoord w h (BR.invSym σ) c) = c := by
  obtain ⟨sh, sv, sd⟩ := σ
  obtain ⟨x, y⟩ := c
  simp only [BR.invSym]
  rw [symCoord_eq, symCoord_eq]
  cases sd
  · cases sh <;> cases sv <;> simp
  · have hw : w = h := hd rfl
    cases sh <;> cases sv <;> simp <;> omega

theorem symCoord_mem_grid (w h : Nat) (σ : Symmetry) (hd : σ.diagonal = true → w = h)
    (c : Int × Int) (hc : c ∈ gridPositions w h) :
    BR.symCoord w h σ c ∈ gridPositions w h := by
  obtain ⟨x, y⟩ := c
  rw [BR.mem_gridPositions_iff] at hc
  obtain ⟨sh, sv, sd⟩ := σ
  rw [symCoord_eq]
  cases sd
  · cases sh <;> cases sv <;> rw [BR.mem_gridPositions_iff] <;> simp <;> omega
  · have hw : w = h := hd rfl
    cases sh <;> cases sv <;> rw [BR.mem_gridPositions_iff] <;> simp <;> omega

/-! ### The symmetry list and applicability -/

theorem mem_allSymmetries (σ : Symmetry) : σ ∈ allSymmetries := by
  obtain ⟨sh, sv, sd⟩ := σ
  cases sh <;> cases sv <;> cases sd <;> decide

theorem mem_applicable_iff (b : BR.Board) (σ : Symmetry) :
    σ ∈ BR.applicableSymmetries b ↔ (σ.diagonal = true → b.width = b.height) := by
  unfold BR.applicableSymmetries
  rw [List.mem_filter]
  constructor
  · rintro ⟨_, hcond⟩ hdiag
    by_contra hne
    rw [hdiag, decide_eq_true hne] at hcond
    simp at hcond
  · intro himp
    refine ⟨mem_allSymmetries σ, ?_⟩
    cases hdiag : σ.diagonal
    · simp [hdiag]
    · have hw := himp hdiag
      simp [hdiag, hw]

theorem applicable_dims (b b2 : BR.Board) (hw : b.width = b2.width)
    (hh : b.height = b2.height) :
    BR.applicableSymmetries b = BR.applicableSymmetries b2 := by
  unfold BR.applicableSymmetries
  rw [hw, hh]

theorem compSym_cancel (σ τ : Symmetry) :
    BR.compSym σ (BR.compSym (BR.invSym σ) τ) = τ := by
  obtain ⟨sh, sv, sd⟩ := σ
  obtain ⟨th, tv, td⟩ := τ
  cases sh <;> cases sv <;> cases sd <;> cases th <;> cases tv <;> cases td <;> rfl

theorem compSym_diagonal (σ τ : Symmetry) :
    (BR.compSym σ τ).diagonal = (σ.diagonal).xor τ.diagonal := rfl

theorem invSym_diagonal (σ : Symmetry) : (BR.invSym σ).diagonal = σ.diagonal := rfl

/-! ### Catalog-wide transform facts (finite checks) -/

theorem transform_total :
    allPolyominos.all (fun p =>
      allSymmetries.all (fun σ => (transformPoly p σ).isSome)) = true := by
  decide

theorem transform_comp_all :
    allPolyominos.all (fun p => allSymmetries.all (fun σ => allSymmetries.all (fun τ =>
      ((transformPoly p σ).bind (fun q => transformPoly q τ)) ==
        transformPoly p (BR.compSym σ τ)))) = true := by
  decide

theorem transform_total2 (p : Poly) (hp : p ∈ allPolyominos) (σ : Symmetry) :
    (transformPoly p σ).isSome = true := by
  have h := transform_total
  rw [List.all_eq_true] at h
  have h2 := h p hp
  rw [List.all_eq_true] at h2
  exact h2 σ (mem_allSymmetries σ)

theorem transform_comp (p : Poly) (hp : p ∈ allPolyominos) (σ τ : Symmetry) :
    (transformPoly p σ).bind (fun q => transformPoly q τ) =
      transformPoly p (BR.compSym σ τ) := by
  have h := transform_comp_all
  rw [List.all_eq_true] at h
  have h2 := h p hp
  rw [List.all_eq_true] at h2
  have h3 := h2 σ (mem_allSymmetries σ)
  rw [List.all_eq_true] at h3
  exact eq_of_beq (h3 τ (mem_allSymmetries τ))

theorem transform_mem (p q : Poly) (σ : Symmetry) (h : transformPoly p σ = some q) :
    q ∈ allPolyominos := by
  unfold transformPoly at h
  cases h1 : allPolyominos.indexOf? p with
  | none =>
    rw [h1] at h
    simp at h
  | some i =>
    rw [h1] at h
    simp only [Option.some_bind] at h
    cases h2 : symTables.get? i with
    | none =>
      rw [h2] at h
      simp at h
    | some table =>
      rw [h2] at h
      simp only [Option.some_bind] at h
      cases h3 : table.get? σ.intoIndex with
      | none =>
        rw [h3] at h
        simp at h
      | some entry =>
        rw [h3] at h
        simp only [Option.some_bind] at h
        cases h4 : entry with
        | none =>
          rw [h4] at h
          simp at h
        | some j =>
          rw [h4] at h
          simp only [Option.some_bind] at h
          rw [List.get?_eq_getElem?] at h
          exact List.getElem?_mem h

/-! ### Reading full boards -/

theorem indexOf_get2 (l : List Nat) (j : Nat) (h : j ∈ l) :
    l.get? (l.indexOf j) = some j := by
  rw [List.get?_eq_getElem?, List.getElem?_eq_getElem (List.indexOf_lt_length.mpr h)]
  simp [List.getElem_indexOf]

theorem indexOf_inj (l : List Nat) (a b : Nat) (ha : a ∈ l) (hb : b ∈ l)
    (h : l.indexOf a = l.indexOf b) : a = b := by
  have h1 := indexOf_get2 l a ha
  have h2 := indexOf_get2 l b hb
  rw [h] at h1
  rw [h1] at h2
  injection h2

theorem full_no_open (b : BR.Board) (hfull : b.isFull = true) :
    ∀ c ∈ gridPositions b.width b.height, b.get c.1 c.2 ≠ some none := by
  unfold BR.Board.isFull at hfull
  rw [Option.isNone_iff_eq_none] at hfull
  unfold BR.Board.findFirstOpenCell at hfull
  rw [List.find?_eq_none] at hfull
  intro c hc he
  exact hfull c hc (by rw [he]; exact beq_self_eq_true _)

theorem get_grid (b : BR.Board) (hwf : BR.WF b) (c : Int × Int)
    (hc : c ∈ gridPositions b.width b.height) :
    b.get c.1 c.2 = some (b.cells.getD (c.1.toNat + c.2.toNat * b.width) none) ∧
      c.1.toNat + c.2.toNat * b.width < b.cells.length := by
  obtain ⟨x, y⟩ := c
  rw [BR.mem_gridPositions_iff] at hc
  constructor
  · have hin : b.isInBounds x y := by
      unfold BR.Board.isInBounds
      omega
    unfold BR.Board.get
    rw [if_pos hin]
  · exact BR.idx_ltB b x y hwf hc.1 hc.2.2.1 hc.2.1 hc.2.2.2

theorem getD_mem (b : BR.Board) (i : Nat) (hlt : i < b.cells.length) :
    b.cells.getD i none ∈ b.cells := by
  rw [List.getD_eq_getElem?_getD, List.getElem?_eq_getElem hlt]
  simp only [Option.getD_some]
  exact List.getElem_mem hlt

theorem cellIdx_spec (b : BR.Board) (hwf : BR.WF b) (hfull : b.isFull = true)
    (c : Int × Int) (hc : c ∈ gridPositions b.width b.height) :
    b.get c.1 c.2 = some (some (BR.cellIdx b c)) := by
  obtain ⟨hg, hlt⟩ := get_grid b hwf c hc
  have hne := full_no_open b hfull c hc
  cases hv : b.cells.getD (c.1.toNat + c.2.toNat * b.width) none with
  | none =>
    rw [hv] at hg
    exact absurd hg hne
  | some i =>
    rw [hv] at hg
    unfold BR.cellIdx
    rw [hg]
    simp

theorem cellIdx_lt (b : BR.Board) (hwf : BR.WF b) (hfull : b.isFull = true)
    (hidx : ∀ v ∈ b.cells, ∀ i, v = some i → i < b.polyominos.length)
    (c : Int × Int) (hc : c ∈ gridPositions b.width b.height) :
    BR.cellIdx b c < b.polyominos.length := by
  obtain ⟨hg, hlt⟩ := get_grid b hwf c hc
  have hspec := cellIdx_spec b hwf hfull c hc
  rw [hg] at hspec
  injection hspec with hspec
  exact hidx _ (getD_mem b _ hlt) _ hspec

theorem isFull_of_all_some (b : BR.Board) (hwf : BR.WF b)
    (hall : ∀ v ∈ b.cells, v.isSome = true) : b.isFull = true := by
  unfold BR.Board.isFull BR.Board.findFirstOpenCell
  rw [Option.isNone_iff_eq_none, List.find?_eq_none]
  intro c hc hbeq
  rw [beq_iff_eq] at hbeq
  obtain ⟨hg, hlt⟩ := get_grid b hwf c hc
  rw [hg] at hbeq
  injection hbeq with hbeq
  have hmem := getD_mem b _ hlt
  have hsome := hall _ hmem
  rw [hbeq] at hsome
  cases hsome

theorem getTransformed_eq (b : BR.Board) (σ : Symmetry) (x y : Int) :
    b.getTransformed σ x y =
      (b.get (BR.symCoord b.width b.height σ (x, y)).1
        (BR.symCoord b.width b.height σ (x, y)).2).bind id := by
  obtain ⟨sh, sv, sd⟩ := σ
  cases sd <;> rfl

theorem transVals_eq (b : BR.Board) (hwf : BR.WF b) (hfull : b.isFull = true)
    (σ : Symmetry) (hd : σ.diagonal = true → b.width = b.height) :
    BR.transVals b σ =
      some ((gridPositions b.width b.height).map
        (fun c => BR.cellIdx b (BR.symCoord b.width b.height σ c))) := by
  unfold BR.transVals
  have hcongr : ∀ c ∈ gridPositions b.width b.height,
      b.getTransformed σ c.1 c.2 =
        some (BR.cellIdx b (BR.symCoord b.width b.height σ c)) := by
    intro c hc
    obtain ⟨x, y⟩ := c
    show b.getTransformed σ x y = _
    rw [getTransformed_eq]
    have hmem := symCoord_mem_grid b.width b.height σ hd (x, y) hc
    have hspec := cellIdx_spec b hwf hfull _ hmem
    rw [hspec]
    rfl
  rw [optMapM_congr _ (fun c => some (BR.cellIdx b (BR.symCoord b.width b.height σ c))) _
    hcongr]
  exact optMapM_some _ _

theorem sympoly_eq (b : BR.Board) (hwf : BR.WF b) (hfull : b.isFull = true)
    (σ : Symmetry) (hd : σ.diagonal = true → b.width = b.height) :
    BR.symmetricBoardPolyominos b σ =
      (BR.firstSeen ((gridPositions b.width b.height).map
          (fun c => BR.cellIdx b (BR.symCoord b.width b.height σ c)))).mapM
        (fun i => (b.polyominos.get? i).bind (fun p => transformPoly p σ)) := by
  unfold BR.symmetricBoardPolyominos
  rw [if_neg ?_]
  · rw [show ((gridPositions b.width b.height).mapM
        (fun c => b.getTransformed σ c.1 c.2)) = BR.transVals b σ from rfl]
    rw [transVals_eq b hwf hfull σ hd, Option.some_bind]
  · rintro ⟨hne, hdiag⟩
    exact hne (hd hdiag)

theorem sympoly_isSome (b : BR.Board) (hwf : BR.WF b) (hfull : b.isFull = true)
    (hidx : ∀ v ∈ b.cells, ∀ i, v = some i → i < b.polyominos.length)
    (hsub : ∀ p ∈ b.polyominos, p ∈ allPolyominos)
    (σ : Symmetry) (hd : σ.diagonal = true → b.width = b.height) :
    ∃ sol, BR.symmetricBoardPolyominos b σ = some sol := by
  rw [sympoly_eq b hwf hfull σ hd]
  apply optMapM_isSome
  intro i hi
  rw [mem_firstSeen] at hi
  obtain ⟨c, hc, hci⟩ := List.mem_map.mp hi
  have hmem := symCoord_mem_grid b.width b.height σ hd c hc
  have hlt : i < b.polyominos.length := by
    rw [← hci]
    exact cellIdx_lt b hwf hfull hidx _ hmem
  have hget : b.polyominos.get? i = some (b.polyominos.get ⟨i, hlt⟩) := by
    rw [List.get?_eq_getElem?, List.getElem?_eq_getElem hlt]
    rfl
  rw [hget, Option.some_bind]
  have hpmem : b.polyominos.get ⟨i, hlt⟩ ∈ b.polyominos := List.get_mem _ _ hlt
  exact transform_total2 _ (hsub _ hpmem) σ

theorem transformBoard_parts (b : BR.Board) (σ : Symmetry) (b2 : BR.Board)
    (h : BR.transformBoard b σ = some b2) :
    ∃ vs sol, BR.transVals b σ = some vs ∧ BR.symmetricBoardPolyominos b σ = some sol ∧
      b2.cells = vs.map (fun j => some ((BR.firstSeen vs).indexOf j)) ∧
      b2.polyominos = sol ∧ b2.width = b.width ∧ b2.height = b.height := by
  unfold BR.transformBoard at h
  cases h1 : BR.transVals b σ with
  | none =>
    rw [h1] at h
    simp at h
  | some vs =>
    rw [h1] at h
    simp only [Option.some_bind] at h
    cases h2 : BR.symmetricBoardPolyominos b σ with
    | none =>
      rw [h2] at h
      simp at h
    | some sol =>
      rw [h2] at h
      simp only [Option.map_some', Option.some.injEq] at h
      refine ⟨vs, sol, rfl, rfl, ?_, ?_, ?_, ?_⟩ <;> rw [← h]

theorem transformBoard_props (b : BR.Board) (σ : Symmetry) (b2 : BR.Board)
    (h : BR.transformBoard b σ = some b2) :
    BR.WF b2 ∧ b2.isFull = true ∧ b2.width = b.width ∧ b2.height = b.height := by
  obtain ⟨vs, sol, hvs, hsol, hcells, hpolys, hw, hh⟩ := transformBoard_parts b σ b2 h
  have hlen : vs.length = b.width * b.height := by
    unfold BR.transVals at hvs
    rw [optMapM_length _ _ _ hvs, gridPositions_length]
  have hwf2 : BR.WF b2 := by
    unfold BR.WF
    rw [hcells, List.length_map, hlen, hw, hh]
  refine ⟨hwf2, ?_, hw, hh⟩
  apply isFull_of_all_some b2 hwf2
  intro v hv
  rw [hcells] at hv
  obtain ⟨j, _, hj⟩ := List.mem_map.mp hv
  rw [← hj]
  rfl

/-! ### Transformed boards and composition of symmetries -/

theorem grid_get_idx (w h : Nat) (x y : Int)
    (hx : 0 ≤ x) (hx2 : x < (w : Int)) (hy : 0 ≤ y) (hy2 : y < (h : Int)) :
    (gridPositions w h).get? (x.toNat + y.toNat * w) = some (x, y) := by
  have hxw : x.toNat < w := by omega
  have hyh : y.toNat < h := by omega
  have hlt : x.toNat + y.toNat * w < w * h := by
    calc x.toNat + y.toNat * w < w + y.toNat * w := by omega
      _ = (y.toNat + 1) * w := by ring
      _ ≤ h * w := Nat.mul_le_mul_right _ (by omega)
      _ = w * h := Nat.mul_comm _ _
  rw [gridPositions_get? w h _ hlt]
  have hw : 0 < w := by omega
  have h1 : (x.toNat + y.toNat * w) % w = x.toNat := by
    rw [Nat.add_mul_mod_self_right]
    exact Nat.mod_eq_of_lt hxw
  have h2 : (x.toNat + y.toNat * w) / w = y.toNat := by
    rw [Nat.add_mul_div_right _ _ hw, Nat.div_eq_of_lt hxw]
    omega
  rw [h1, h2]
  have hxe : Int.ofNat x.toNat = x := by
    rw [Int.ofNat_eq_coe]
    omega
  have hye : Int.ofNat y.toNat = y := by
    rw [Int.ofNat_eq_coe]
    omega
  rw [hxe, hye]

theorem get_mk_grid (w h : Nat) (f : (Int × Int) → Option Nat)
    (cells0 : List (Option Nat)) (polys0 : List Poly)
    (hcells : cells0 = (gridPositions w h).map f)
    (c : Int × Int) (hc : c ∈ gridPositions w h) :
    BR.Board.get ⟨cells0, polys0, w, h⟩ c.1 c.2 = some (f c) := by
  obtain ⟨x, y⟩ := c
  rw [BR.mem_gridPositions_iff] at hc
  show BR.Board.get ⟨cells0, polys0, w, h⟩ x y = some (f (x, y))
  have hin : BR.Board.isInBounds ⟨cells0, polys0, w, h⟩ x y := by
    show ¬(x < 0 ∨ y < 0 ∨ x ≥ (w : Int) ∨ y ≥ (h : Int))
    omega
  unfold BR.Board.get
  rw [if_pos hin]
  show some (cells0.getD (x.toNat + y.toNat * w) none) = some (f (x, y))
  rw [hcells, List.getD_eq_getElem?_getD, List.getElem?_map]
  have hg := grid_get_idx w h x y hc.1 hc.2.1 hc.2.2.1 hc.2.2.2
  rw [List.get?_eq_getElem?] at hg
  rw [hg]
  rfl

theorem transformBoard_parts2 (b : BR.Board) (σ : Symmetry) (b2 : BR.Board)
    (h : BR.transformBoard b σ = some b2) :
    ∃ vs sol, BR.transVals b σ = some vs ∧ BR.symmetricBoardPolyominos b σ = some sol ∧
      b2 = { cells := vs.map (fun j => some ((BR.firstSeen vs).indexOf j))
             polyominos := sol
             width := b.width
             height := b.height } := by
  unfold BR.transformBoard at h
  cases h1 : BR.transVals b σ with
  | none =>
    rw [h1] at h
    simp at h
  | some vs =>
    rw [h1] at h
    simp only [Option.some_bind] at h
    cases h2 : BR.symmetricBoardPolyominos b σ with
    | none =>
      rw [h2] at h
      simp at h
    | some sol =>
      rw [h2] at h
      simp only [Option.map_some', Option.some.injEq] at h
      exact ⟨vs, sol, rfl, rfl, h.symm⟩

/-- The heart of orbit invariance: reading the board transformed by `σ`
through the coordinate map of `τ` visits exactly the cells of the original
board under the composed symmetry, and the first-seen renumbering cancels, so
the two symmetric solutions coincide. -/
theorem sympoly_mk (b : BR.Board) (hwf : BR.WF b) (hfull : b.isFull = true)
    (_hidx : ∀ v ∈ b.cells, ∀ i, v = some i → i < b.polyominos.length)
    (hsub : ∀ p ∈ b.polyominos, p ∈ allPolyominos)
    (σ τ : Symmetry) (hσ : σ.diagonal = true → b.width = b.height)
    (hτ : τ.diagonal = true → b.width = b.height)
    (vs sol : List _) (hvs : BR.transVals b σ = some vs)
    (hsol : BR.symmetricBoardPolyominos b σ = some sol) :
    BR.symmetricBoardPolyominos
        ⟨vs.map (fun j => some ((BR.firstSeen vs).indexOf j)), sol, b.width, b.height⟩ τ =
      BR.symmetricBoardPolyominos b (BR.compSym σ τ) := by
  have hvs2 : vs = (gridPositions b.width b.height).map
      (fun c => BR.cellIdx b (BR.symCoord b.width b.height σ c)) := by
    have h := transVals_eq b hwf hfull σ hσ
    rw [hvs] at h
    injection h
  have hcomp : (BR.compSym σ τ).diagonal = true → b.width = b.height := by
    rw [compSym_diagonal]
    intro hx
    cases hsd : σ.diagonal
    · rw [hsd] at hx
      simp at hx
      exact hτ hx
    · exact hσ hsd
  have hsubvals : ∀ j ∈ (gridPositions b.width b.height).map
      (fun c => BR.cellIdx b (BR.symCoord b.width b.height (BR.compSym σ τ) c)), j ∈ vs := by
    intro j hj
    obtain ⟨c, hc, hcj⟩ := List.mem_map.mp hj
    rw [hvs2]
    have hdmem := symCoord_mem_grid b.width b.height (BR.compSym σ τ) hcomp c hc
    have hinvd : (BR.invSym σ).diagonal = true → b.width = b.height := by
      rw [invSym_diagonal]
      exact hσ
    have hc2 := symCoord_mem_grid b.width b.height (BR.invSym σ) hinvd _ hdmem
    refine List.mem_map.mpr ⟨_, hc2, ?_⟩
    show BR.cellIdx b (BR.symCoord b.width b.height σ (BR.symCoord b.width b.height
      (BR.invSym σ) (BR.symCoord b.width b.height (BR.compSym σ τ) c))) = j
    rw [symCoord_inv b.width b.height σ hσ]
    exact hcj
  have hcellsF : vs.map (fun j => some ((BR.firstSeen vs).indexOf j)) =
      (gridPositions b.width b.height).map
        (fun c => some ((BR.firstSeen vs).indexOf
          (BR.cellIdx b (BR.symCoord b.width b.height σ c)))) := by
    rw [hvs2, List.map_map]
    rfl
  have hcongr2 : ∀ c ∈ gridPositions b.width b.height,
      BR.Board.getTransformed
          ⟨vs.map (fun j => some ((BR.firstSeen vs).indexOf j)), sol, b.width, b.height⟩
          τ c.1 c.2 =
        some ((BR.firstSeen vs).indexOf
          (BR.cellIdx b (BR.symCoord b.width b.height (BR.compSym σ τ) c))) := by
    intro c hc
    obtain ⟨x, y⟩ := c
    show BR.Board.getTransformed
      ⟨vs.map (fun j => some ((BR.firstSeen vs).indexOf j)), sol, b.width, b.height⟩ τ x y = _
    rw [getTransformed_eq]
    show (BR.Board.get
        ⟨vs.map (fun j => some ((BR.firstSeen vs).indexOf j)), sol, b.width, b.height⟩
        (BR.symCoord b.width b.height τ (x, y)).1
        (BR.symCoord b.width b.height τ (x, y)).2).bind id = _
    have hdmem : BR.symCoord b.width b.height τ (x, y) ∈ gridPositions b.width b.height :=
      symCoord_mem_grid b.width b.height τ hτ (x, y) hc
    rw [get_mk_grid b.width b.height _ _ _ hcellsF _ hdmem]
    show some ((BR.firstSeen vs).indexOf
      (BR.cellIdx b (BR.symCoord b.width b.height σ
        (BR.symCoord b.width b.height τ (x, y))))) = _
    rw [symCoord_comp b.width b.height σ τ hσ hτ (x, y)]
  have htv2 : BR.transVals
      ⟨vs.map (fun j => some ((BR.firstSeen vs).indexOf j)), sol, b.width, b.height⟩ τ =
      some ((gridPositions b.width b.height).map
        (fun c => (BR.firstSeen vs).indexOf
          (BR.cellIdx b (BR.symCoord b.width b.height (BR.compSym σ τ) c)))) := by
    unfold BR.transVals
    show (gridPositions b.width b.height).mapM
        (fun c => BR.Board.getTransformed
          ⟨vs.map (fun j => some ((BR.firstSeen vs).indexOf j)), sol, b.width, b.height⟩
          τ c.1 c.2) = _
    rw [optMapM_congr _ (fun c => some ((BR.firstSeen vs).indexOf
      (BR.cellIdx b (BR.symCoord b.width b.height (BR.compSym σ τ) c)))) _ hcongr2]
    exact optMapM_some _ _
  have hguard : ¬(BR.Board.width
        ⟨vs.map (fun j => some ((BR.firstSeen vs).indexOf j)), sol, b.width, b.height⟩ ≠
      BR.Board.height
        ⟨vs.map (fun j => some ((BR.firstSeen vs).indexOf j)), sol, b.width, b.height⟩ ∧
      τ.diagonal = true) := by
    rintro ⟨hne, hdiag⟩
    exact hne (hτ hdiag)
  have hsymp2 : BR.symmetricBoardPolyominos
      ⟨vs.map (fun j => some ((BR.firstSeen vs).indexOf j)), sol, b.width, b.height⟩ τ =
      (BR.firstSeen ((gridPositions b.width b.height).map
        (fun c => (BR.firstSeen vs).indexOf
          (BR.cellIdx b (BR.symCoord b.width b.height (BR.compSym σ τ) c))))).mapM
        (fun i => (sol.get? i).bind (fun p => transformPoly p τ)) := by
    unfold BR.symmetricBoardPolyominos
    rw [if_neg hguard]
    rw [show ((gridPositions (BR.Board.width
        ⟨vs.map (fun j => some ((BR.firstSeen vs).indexOf j)), sol, b.width, b.height⟩)
        (BR.Board.height
        ⟨vs.map (fun j => some ((BR.firstSeen vs).indexOf j)), sol, b.width, b.height⟩)).mapM
        (fun c => BR.Board.getTransformed
          ⟨vs.map (fun j => some ((BR.firstSeen vs).indexOf j)), sol, b.width, b.height⟩
          τ c.1 c.2)) =
      BR.transVals
        ⟨vs.map (fun j => some ((BR.firstSeen vs).indexOf j)), sol, b.width, b.height⟩ τ
      from rfl]
    rw [htv2, Option.some_bind]
  rw [hsymp2]
  have hfsmap : BR.firstSeen ((gridPositions b.width b.height).map
        (fun c => (BR.firstSeen vs).indexOf
          (BR.cellIdx b (BR.symCoord b.width b.height (BR.compSym σ τ) c)))) =
      (BR.firstSeen ((gridPositions b.width b.height).map
        (fun c => BR.cellIdx b (BR.symCoord b.width b.height (BR.compSym σ τ) c)))).map
        (fun j => (BR.firstSeen vs).indexOf j) := by
    have hinj : ∀ a ∈ vs, ∀ a2 ∈ vs,
        (fun j => (BR.firstSeen vs).indexOf j) a = (fun j => (BR.firstSeen vs).indexOf j) a2 →
          a = a2 := by
      intro a ha a2 ha2 he
      exact indexOf_inj _ a a2 ((mem_firstSeen vs a).mpr ha) ((mem_firstSeen vs a2).mpr ha2) he
    have hmm := firstSeen_map (fun j => (BR.firstSeen vs).indexOf j) vs
      ((gridPositions b.width b.height).map
        (fun c => BR.cellIdx b (BR.symCoord b.width b.height (BR.compSym σ τ) c)))
      hinj hsubvals
    rw [← hmm, List.map_map]
    rfl
  rw [hfsmap, optMapM_map]
  rw [sympoly_eq b hwf hfull (BR.compSym σ τ) hcomp]
  apply optMapM_congr
  intro j hj
  rw [mem_firstSeen] at hj
  have hjvs : j ∈ vs := hsubvals j hj
  have hsolget : sol.get? ((BR.firstSeen vs).indexOf j) =
      (b.polyominos.get? j).bind (fun p => transformPoly p σ) := by
    have hs := sympoly_eq b hwf hfull σ hσ
    rw [hsol] at hs
    rw [← hvs2] at hs
    have hget := optMapM_get? _ _ _ hs.symm ((BR.firstSeen vs).indexOf j)
    rw [hget, indexOf_get2 (BR.firstSeen vs) j ((mem_firstSeen vs j).mpr hjvs),
      Option.some_bind]
  show (sol.get? ((BR.firstSeen vs).indexOf j)).bind (fun p => transformPoly p τ) = _
  rw [hsolget, Option.bind_assoc]
  cases hbp : b.polyominos.get? j with
  | none => rfl
  | some p =>
    rw [Option.some_bind, Option.some_bind]
    have hpmem : p ∈ b.polyominos := by
      rw [List.get?_eq_getElem?] at hbp
      exact List.getElem?_mem hbp
    exact transform_comp p (hsub p hpmem) σ τ

theorem sympoly_transform (b : BR.Board) (hwf : BR.WF b) (hfull : b.isFull = true)
    (hidx : ∀ v ∈ b.cells, ∀ i, v = some i → i < b.polyominos.length)
    (hsub : ∀ p ∈ b.polyominos, p ∈ allPolyominos)
    (σ τ : Symmetry) (hσ : σ.diagonal = true → b.width = b.height)
    (hτ : τ.diagonal = true → b.width = b.height)
    (b2 : BR.Board) (h2 : BR.transformBoard b σ = some b2) :
    BR.symmetricBoardPolyominos b2 τ = BR.symmetricBoardPolyominos b (BR.compSym σ τ) := by
  obtain ⟨vs, sol, hvs, hsol, heq⟩ := transformBoard_parts2 b σ b2 h2
  subst heq
  exact sympoly_mk b hwf hfull hidx hsub σ τ hσ hτ vs sol hvs hsol

/-! ### The canonical form: minimality and orbit invariance -/

theorem canonicalForm_spec (b : BR.Board) (m : List Poly)
    (h : BR.cannonicalForm b = some m) :
    (∃ σ ∈ BR.applicableSymmetries b, BR.symmetricBoardPolyominos b σ = some m) ∧
      ∀ σ ∈ BR.applicableSymmetries b, ∀ s, BR.symmetricBoardPolyominos b σ = some s →
        solLe m s := by
  unfold BR.cannonicalForm at h
  by_cases hfull : b.isFull = false
  · rw [if_pos hfull] at h
    cases h
  · rw [if_neg hfull] at h
    cases hL : (BR.applicableSymmetries b).mapM (fun σ => BR.symmetricBoardPolyominos b σ) with
    | none =>
      rw [hL] at h
      cases h
    | some L =>
      rw [hL, Option.some_bind] at h
      obtain ⟨hmem, hall⟩ := selectMinSol_spec L m h
      constructor
      · exact optMapM_mem_exists _ _ _ hL m hmem
      · intro σ hσ s hs
        obtain ⟨bb, hbb, hfb⟩ := optMapM_forall_mem _ _ _ hL σ hσ
        rw [hs] at hfb
        injection hfb with hfb
        rw [hfb]
        exact hall _ hbb

theorem canonicalForm_some_of (b : BR.Board) (hfull : b.isFull = true)
    (hall : ∀ σ ∈ BR.applicableSymmetries b,
      ∃ s, BR.symmetricBoardPolyominos b σ = some s) :
    ∃ m, BR.cannonicalForm b = some m := by
  unfold BR.cannonicalForm
  rw [if_neg (by rw [hfull]; simp)]
  obtain ⟨L, hL⟩ := optMapM_isSome (fun σ => BR.symmetricBoardPolyominos b σ)
    (BR.applicableSymmetries b) (fun σ hσ => by
      obtain ⟨s, hs⟩ := hall σ hσ
      show (BR.symmetricBoardPolyominos b σ).isSome = true
      rw [hs]
      rfl)
  rw [hL, Option.some_bind]
  have hid : (⟨false, false, false⟩ : Symmetry) ∈ BR.applicableSymmetries b :=
    (mem_applicable_iff b _).mpr (fun hcon => absurd hcon (by decide))
  obtain ⟨bb, hbb, _⟩ := optMapM_forall_mem _ _ _ hL _ hid
  rcases L with _ | ⟨s, rest⟩
  · cases hbb
  · exact ⟨_, rfl⟩

theorem canonicalForm_some (b : BR.Board) (hwf : BR.WF b) (hfull : b.isFull = true)
    (hidx : ∀ v ∈ b.cells, ∀ i, v = some i → i < b.polyominos.length)
    (hsub : ∀ p ∈ b.polyominos, p ∈ allPolyominos) :
    ∃ m, BR.cannonicalForm b = some m :=
  canonicalForm_some_of b hfull (fun σ hσm =>
    sympoly_isSome b hwf hfull hidx hsub σ ((mem_applicable_iff b σ).mp hσm))

theorem canonical_orbit (b : BR.Board) (hwf : BR.WF b) (hfull : b.isFull = true)
    (hidx : ∀ v ∈ b.cells, ∀ i, v = some i → i < b.polyominos.length)
    (hsub : ∀ p ∈ b.polyominos, p ∈ allPolyominos)
    (σ : Symmetry) (hσmem : σ ∈ BR.applicableSymmetries b)
    (b2 : BR.Board) (htr : BR.transformBoard b σ = some b2) :
    BR.cannonicalForm b2 = BR.cannonicalForm b := by
  have hσ := (mem_applicable_iff b σ).mp hσmem
  obtain ⟨hwf2, hfull2, hw, hh⟩ := transformBoard_props b σ b2 htr
  have happ : BR.applicableSymmetries b2 = BR.applicableSymmetries b :=
    applicable_dims b2 b hw hh
  have hcompd : ∀ τ : Symmetry, (τ.diagonal = true → b.width = b.height) →
      ((BR.compSym σ τ).diagonal = true → b.width = b.height) := by
    intro τ hτ
    rw [compSym_diagonal]
    intro hx
    cases hsd : σ.diagonal
    · rw [hsd] at hx
      simp at hx
      exact hτ hx
    · exact hσ hsd
  obtain ⟨m, hm⟩ := canonicalForm_some b hwf hfull hidx hsub
  obtain ⟨⟨σm, hσmm, hsm⟩, hminb⟩ := canonicalForm_spec b m hm
  obtain ⟨m2, hm2⟩ := canonicalForm_some_of b2 hfull2 (fun τ hτm => by
    have hτ : τ.diagonal = true → b.width = b.height := by
      have hd := (mem_applicable_iff b2 τ).mp hτm
      rw [hw, hh] at hd
      exact hd
    rw [sympoly_transform b hwf hfull hidx hsub σ τ hσ hτ b2 htr]
    exact sympoly_isSome b hwf hfull hidx hsub _ (hcompd τ hτ))
  obtain ⟨⟨σ2, hσ2m, hs2⟩, hminb2⟩ := canonicalForm_spec b2 m2 hm2
  have hτ2 : σ2.diagonal = true → b.width = b.height := by
    have hd := (mem_applicable_iff b2 σ2).mp hσ2m
    rw [hw, hh] at hd
    exact hd
  have hcomp2mem : BR.compSym σ σ2 ∈ BR.applicableSymmetries b :=
    (mem_applicable_iff b _).mpr (hcompd σ2 hτ2)
  have hs2b : BR.symmetricBoardPolyominos b (BR.compSym σ σ2) = some m2 := by
    rw [← sympoly_transform b hwf hfull hidx hsub σ σ2 hσ hτ2 b2 htr]
    exact hs2
  have hle1 : solLe m m2 := hminb _ hcomp2mem _ hs2b
  have hσm2 : σm.diagonal = true → b.width = b.height := (mem_applicable_iff b σm).mp hσmm
  have hτ0d : (BR.compSym (BR.invSym σ) σm).diagonal = true → b.width = b.height := by
    rw [compSym_diagonal, invSym_diagonal]
    intro hx
    cases hsd : σ.diagonal
    · rw [hsd] at hx
      simp at hx
      exact hσm2 hx
    · exact hσ hsd
  have hτ0mem : BR.compSym (BR.invSym σ) σm ∈ BR.applicableSymmetries b2 := by
    rw [happ]
    exact (mem_applicable_iff b _).mpr hτ0d
  have hs0 : BR.symmetricBoardPolyominos b2 (BR.compSym (BR.invSym σ) σm) = some m := by
    rw [sympoly_transform b hwf hfull hidx hsub σ _ hσ hτ0d b2 htr, compSym_cancel]
    exact hsm
  have hle2 : solLe m2 m := hminb2 _ hτ0mem _ hs0
  have hmm : m = m2 := solLe_antisymm m m2 hle1 hle2
  rw [hm2, hm, hmm]

/-- **C1**: for every full board whose stored cell indices point below the
length of its placement sequence and whose pieces all come from the catalog,
`cannonical_form` returns the minimum solution, under the `Solution` order,
among the symmetric solutions of all applicable symmetries (all eight on a
square board, the four non-diagonal ones otherwise) — and transforming the
board by any applicable symmetry leaves the canonical form unchanged, so all
members of a symmetry orbit share one canonical key. -/
theorem c1_canonical_minimum_orbit (b : BR.Board) (hwf : BR.WF b)
    (hfull : b.isFull = true)
    (hidx : ∀ v ∈ b.cells, ∀ i, v = some i → i < b.polyominos.length)
    (hsub : ∀ p ∈ b.polyominos, p ∈ allPolyominos) :
    (∃ m, BR.cannonicalForm b = some m ∧
      (∃ σ ∈ BR.applicableSymmetries b, BR.symmetricBoardPolyominos b σ = some m) ∧
      (∀ σ ∈ BR.applicableSymmetries b, ∀ s,
        BR.symmetricBoardPolyominos b σ = some s → solLe m s)) ∧
    (∀ σ ∈ BR.applicableSymmetries b, ∀ b2, BR.transformBoard b σ = some b2 →
      BR.cannonicalForm b2 = BR.cannonicalForm b) := by
  constructor
  · obtain ⟨m, hm⟩ := canonicalForm_some b hwf hfull hidx hsub
    obtain ⟨hex, hmin⟩ := canonicalForm_spec b m hm
    exact ⟨m, hm, hex, hmin⟩
  · intro σ hσm b2 htr
    exact canonical_orbit b hwf hfull hidx hsub σ hσm b2 htr

/-- **C1 witness**: the canonical-form theorem applied to the full 1×1 board
holding the single unit piece. -/
theorem c1_canonical_minimum_orbit_witness :
    (∃ m, BR.cannonicalForm ⟨[some 0], [[((0 : Int), (0 : Int))]], 1, 1⟩ = some m ∧
      (∃ σ ∈ BR.applicableSymmetries ⟨[some 0], [[((0 : Int), (0 : Int))]], 1, 1⟩,
        BR.symmetricBoardPolyominos ⟨[some 0], [[((0 : Int), (0 : Int))]], 1, 1⟩ σ = some m) ∧
      (∀ σ ∈ BR.applicableSymmetries ⟨[some 0], [[((0 : Int), (0 : Int))]], 1, 1⟩, ∀ s,
        BR.symmetricBoardPolyominos ⟨[some 0], [[((0 : Int), (0 : Int))]], 1, 1⟩ σ = some s →
          solLe m s)) ∧
    (∀ σ ∈ BR.applicableSymmetries ⟨[some 0], [[((0 : Int), (0 : Int))]], 1, 1⟩, ∀ b2,
      BR.transformBoard ⟨[some 0], [[((0 : Int), (0 : Int))]], 1, 1⟩ σ = some b2 →
        BR.cannonicalForm b2 =
          BR.cannonicalForm ⟨[some 0], [[((0 : Int), (0 : Int))]], 1, 1⟩) :=
  c1_canonical_minimum_orbit ⟨[some 0], [[((0 : Int), (0 : Int))]], 1, 1⟩
    (by unfold BR.WF; rfl)
    (by decide)
    (by
      intro v hv i hvi
      simp only [List.mem_singleton] at hv
      subst hv
      injection hvi with hvi
      simp only [List.length_cons, List.length_nil]
      omega)
    (by
      intro p hp
      simp only [List.mem_singleton] at hp
      subst hp
      decide)

/-- **C9**: on every board reachable from `Board::new` by successful `add`
operations, every occupied cell stores a piece index strictly below the
length of the placement sequence, the cells storing index `i` are exactly the
cells of the `i`-th placed shape translated by its anchor, and consequently
on a full board every transformed lookup `get(..).unwrap().unwrap()` of
`symmetric_board_polyominos` (for an applicable symmetry) yields an index
within `self.polyominos`, so neither the unwraps nor the indexing can hit
their panic branches. -/
theorem c9_cell_invariant_safety (w h : Nat) (b : BR.Board) (hr : BR.Reach w h b) :
    (∀ x y i, b.get x y = some (some i) → i < b.polyominos.length) ∧
      (∀ i, i < b.polyominos.length → ∃ base : Int × Int, ∀ x y : Int,
        (b.get x y = some (some i) ↔
          ∃ c ∈ b.polyominos.getD i [], x = base.1 + c.1 ∧ y = base.2 + c.2)) ∧
      (b.isFull = true → ∀ σ : Symmetry, ¬(b.width ≠ b.height ∧ σ.diagonal = true) →
        ∀ x y : Int, 0 ≤ x → x < (b.width : Int) → 0 ≤ y → y < (b.height : Int) →
          ∃ i, b.getTransformed σ x y = some i ∧ i < b.polyominos.length) := by
  obtain ⟨hwf, hbw, hbh, hidx, hchar⟩ := BR.reach_invariant w h b hr
  refine ⟨hidx, hchar, ?_⟩
  intro hfull σ happ x y h0x hx h0y hy
  have hwh : σ.diagonal = true → b.width = b.height := by
    intro hd
    by_contra hne
    exact happ ⟨hne, hd⟩
  have hcell : ∀ x2 y2 : Int, 0 ≤ x2 → x2 < (b.width : Int) → 0 ≤ y2 →
      y2 < (b.height : Int) →
      ∃ i, (b.get x2 y2).bind id = some i ∧ i < b.polyominos.length := by
    intro x2 y2 a1 a2 a3 a4
    have hmem : (x2, y2) ∈ gridPositions b.width b.height :=
      (BR.mem_gridPositions_iff b.width b.height x2 y2).mpr ⟨a1, a2, a3, a4⟩
    have hnone : ¬(b.get x2 y2 == some none) = true := by
      have hfn := Option.isNone_iff_eq_none.mp hfull
      unfold BR.Board.findFirstOpenCell at hfn
      rw [List.find?_eq_none] at hfn
      exact hfn _ hmem
    simp only [beq_iff_eq] at hnone
    have hget : b.get x2 y2 = some (b.cells.getD (x2.toNat + y2.toNat * b.width) none) := by
      unfold BR.Board.get
      rw [if_pos ?_]
      unfold BR.Board.isInBounds
      omega
    rcases hv : b.cells.getD (x2.toNat + y2.toNat * b.width) none with _ | i
    · rw [hget, hv] at hnone
      simp at hnone
    · refine ⟨i, ?_, ?_⟩
      · rw [hget, hv]
        rfl
      · exact hidx x2 y2 i (by rw [hget, hv])
  unfold BR.Board.getTransformed
  rcases hdg : σ.diagonal <;> rcases hhz : σ.horizontal <;> rcases hvt : σ.vertical <;>
    simp only [hdg, hhz, hvt, if_true, if_false, Bool.false_eq_true, Bool.true_eq_false] <;>
    first
      | exact hcell _ _ (by omega) (by omega) (by omega) (by omega)
      | (have hwheq := hwh hdg
         exact hcell _ _ (by omega) (by omega) (by omega) (by omega))

/-- **C9 witness**: the invariant and safety statement instantiated at a
concrete reachable board: the 1×1 board after placing the unit shape. -/
theorem c9_cell_invariant_safety_witness :
    (∀ x y i,
        ((BR.Board.new 1 1).addAtPosition [((0 : Int), (0 : Int))] (0, 0)).get x y =
            some (some i) →
          i < ((BR.Board.new 1 1).addAtPosition [((0 : Int), (0 : Int))]
            (0, 0)).polyominos.length) ∧
      (∀ i, i < ((BR.Board.new 1 1).addAtPosition [((0 : Int), (0 : Int))]
          (0, 0)).polyominos.length →
        ∃ base : Int × Int, ∀ x y : Int,
          (((BR.Board.new 1 1).addAtPosition [((0 : Int), (0 : Int))] (0, 0)).get x y =
              some (some i) ↔
            ∃ c ∈ ((BR.Board.new 1 1).addAtPosition [((0 : Int), (0 : Int))]
                (0, 0)).polyominos.getD i [],
              x = base.1 + c.1 ∧ y = base.2 + c.2)) ∧
      (((BR.Board.new 1 1).addAtPosition [((0 : Int), (0 : Int))] (0, 0)).isFull = true →
        ∀ σ : Symmetry,
          ¬(((BR.Board.new 1 1).addAtPosition [((0 : Int), (0 : Int))] (0, 0)).width ≠
              ((BR.Board.new 1 1).addAtPosition [((0 : Int), (0 : Int))] (0, 0)).height ∧
            σ.diagonal = true) →
          ∀ x y : Int, 0 ≤ x →
            x < (((BR.Board.new 1 1).addAtPosition [((0 : Int), (0 : Int))]
              (0, 0)).width : Int) →
            0 ≤ y →
            y < (((BR.Board.new 1 1).addAtPosition [((0 : Int), (0 : Int))]
              (0, 0)).height : Int) →
            ∃ i, ((BR.Board.new 1 1).addAtPosition [((0 : Int), (0 : Int))]
                (0, 0)).getTransformed σ x y = some i ∧
              i < ((BR.Board.new 1 1).addAtPosition [((0 : Int), (0 : Int))]
                (0, 0)).polyominos.length) :=
  c9_cell_invariant_safety 1 1
    ((BR.Board.new 1 1).addAtPosition [((0 : Int), (0 : Int))] (0, 0))
    (BR.Reach.step _ _ [((0 : Int), (0 : Int))] BR.Reach.init (by decide))

end PolyGen
